import Mathlib

/-
Verification development for the token-level annotation engine of this
repository: a shallow embedding of `scripts/utils/annotated_tokens.py`
(classes `MutableTokens`, `AnnotatedTokens`, `TokenAnnotation`, the overlap
handlers `merge_strict` / `merge_expand` and `span_intersect`) and of
`scripts/utils/align.py` (function `align`, which drives Python's
`difflib.SequenceMatcher`).

Modelling conventions:
 - Python `int` is `Int`; list indices and slices follow Python semantics
   (negative indices count from the end, slices clamp to bounds).
 - Python `str.split(" ")` (explicit single-space separator) is `splitSp`;
   `" ".join(...)` is `joinSp`; substring tests (`"X" in s`) are `hasSub`.
 - A Python method that can raise is embedded as `Except PyErr _`.  A method
   that may raise only after having already mutated `self` returns
   `Except (PyErr × State) State`, the error carrying the state observed by a
   caller that catches the exception.
 - Python dicts are association lists in insertion order (CPython semantics);
   `{**a, **b}` is `dictMerge`, `sorted(d.items())` is `sortedItems`.
 - Python's stable `sorted` is `List.insertionSort` with a non-strict
   (total preorder) comparison on the sort key, which is stable.
-/

instance {ε α : Type} [DecidableEq ε] [DecidableEq α] : DecidableEq (Except ε α) := fun a b =>
  match a, b with
  | .ok x, .ok y => decidable_of_iff (x = y) (by simp)
  | .error x, .error y => decidable_of_iff (x = y) (by simp)
  | .ok _, .error _ => isFalse (by simp)
  | .error _, .ok _ => isFalse (by simp)

/-- Normalize a Python slice bound for a sequence of length `n`:
negative bounds count from the end, and bounds clamp into `[0, n]`. -/
def pyNorm (n : Nat) (i : Int) : Nat :=
  if i < 0 then ((n : Int) + i).toNat else min i.toNat n

/-- Python slice `l[i:j]`. -/
def pySlice {α : Type} (l : List α) (i j : Int) : List α :=
  let s := pyNorm l.length i
  let e := pyNorm l.length j
  (l.drop s).take (e - s)

/-- Python slice `l[i:]`. -/
def pySliceFrom {α : Type} (l : List α) (i : Int) : List α :=
  l.drop (pyNorm l.length i)

/-- Python indexing `l[i]`: negative indices count from the end;
out-of-range indexing is `none` (an `IndexError`). -/
def pyGet {α : Type} (l : List α) (i : Int) : Option α :=
  let j := if i < 0 then (l.length : Int) + i else i
  if 0 ≤ j ∧ j < (l.length : Int) then l[j.toNat]? else Option.none

/-- Python `sep.join(parts)`. -/
def pyJoin (sep : String) : List String → String
  | [] => ""
  | [x] => x
  | x :: xs => x ++ sep ++ pyJoin sep xs

/-- Python `" ".join(parts)`, the text form used throughout the engine. -/
def joinSp (parts : List String) : String :=
  pyJoin (" ") parts

/-- Split a character list on the single character `' '`
(Python `str.split(" ")` semantics: empty parts are kept). -/
def splitSpChars : List Char → List (List Char)
  | [] => [[]]
  | c :: rest =>
    match splitSpChars rest with
    | [] => [[]]
    | w :: ws => if c = ' ' then [] :: w :: ws else (c :: w) :: ws

/-- Python `s.split(" ")`, with the explicit single-space separator. -/
def splitSp (s : String) : List String :=
  (splitSpChars s.data).map (fun l => String.mk l)

/-- Does the character list start with the given pattern? -/
def startsChars : List Char → List Char → Bool
  | [], _ => true
  | _ :: _, [] => false
  | p :: ps, c :: cs => p = c && startsChars ps cs

/-- Does the pattern occur as a contiguous run in the character list? -/
def hasSubChars (pat : List Char) : List Char → Bool
  | [] => pat.isEmpty
  | c :: cs => startsChars pat (c :: cs) || hasSubChars pat cs

/-- Python substring containment `pat in s`. -/
def hasSub (s pat : String) : Bool :=
  hasSubChars pat.data s.data

/-- Lookup in an insertion-ordered association list (Python dict access). -/
def assocLookup {β : Type} : List (String × β) → String → Option β
  | [], _ => Option.none
  | (k, v) :: rest, key => if k = key then some v else assocLookup rest key

/-- A Python annotation metadata dict: string-keyed, insertion-ordered. -/
abbrev Meta := List (String × String)

/-- Python `{**a, **b}`: the keys of `a` in order, values overridden by `b`
on collision, followed by the keys of `b` not present in `a`, in order. -/
def dictMerge (a b : Meta) : Meta :=
  (a.map (fun kv => (kv.1, (assocLookup b kv.1).getD kv.2))) ++
    b.filter (fun kv => (assocLookup a kv.1).isNone)

/-- Comparison used by Python `sorted(d.items())`: lexicographic on
`(key, value)` pairs of strings. -/
def metaLe (x y : String × String) : Prop :=
  x.1 < y.1 ∨ (x.1 = y.1 ∧ x.2 ≤ y.2)

instance : DecidableRel metaLe := fun x y => by
  unfold metaLe; exact inferInstance

/-- Python `sorted(d.items())`. -/
def sortedItems (m : Meta) : Meta :=
  List.insertionSort metaLe m

/-- The reserved placeholder rendered for annotations without suggestions. -/
def NO_SUGGESTIONS : String := "NO_SUGGESTIONS"

/-- The errors the engine can raise (`OverlapError` is a `ValueError`
subclass; `IndexError` and `AttributeError` are built-ins). -/
inductive PyErr where
  | value
  | overlap
  | index
  | attr
  deriving DecidableEq, Repr

/-- The enum `OnOverlap` of `annotated_tokens.py` (the `callable` escape
hatch of `annotate` is exercised nowhere in this repository and is omitted). -/
inductive OnOverlap where
  | error
  | override
  | save_old
  | merge_strict
  | merge_expand
  deriving DecidableEq, Repr

/-- The `correct_value` argument of `annotate`: a single string, `None`,
or an iterable of strings. -/
inductive CorrectValue where
  | str (s : String)
  | noneVal
  | list (l : List String)
  deriving DecidableEq, Repr

/-- Normalization of `correct_value` into the suggestion list, as in
`AnnotatedTokens.annotate`. -/
def normalizeSuggestions : CorrectValue → List String
  | .str s => [s]
  | .noneVal => []
  | .list l => l

/-- The namedtuple `TokenAnnotation(start, end, source_text, suggestions,
meta)` (`end` is a Lean keyword, hence the field name `end_`; the class name
is shortened for the same reason). -/
structure TokenAnnot where
  start : Int
  end_ : Int
  source_text : String
  suggestions : List String
  meta : Meta
  deriving DecidableEq, Repr

/-- `TokenAnnotation.__eq__`: structural comparison of the coordinates, the
source text, the suggestion tuple and the sorted metadata items. -/
def annotEq (x y : TokenAnnot) : Bool :=
  decide (x.start = y.start ∧ x.end_ = y.end_ ∧ x.source_text = y.source_text ∧
    x.suggestions = y.suggestions ∧ sortedItems x.meta = sortedItems y.meta)

/-- The state of an `AnnotatedTokens` object: the owned token list plus the
annotation collection, in insertion order. -/
structure AnnotatedTokens where
  tokens : List String
  annotations : List TokenAnnot
  deriving DecidableEq, Repr

/-- Index of the first element of the list that compares equal (in the
`TokenAnnotation.__eq__` sense) to the query, as used by `list.remove`. -/
def findFirstEqFrom : List TokenAnnot → TokenAnnot → Nat → Option Nat
  | [], _, _ => Option.none
  | a :: rest, q, i => if annotEq a q then some i else findFirstEqFrom rest q (i + 1)

/-- Index of the first `__eq__`-equal element, or `none`. -/
def findFirstEq (l : List TokenAnnot) (q : TokenAnnot) : Option Nat :=
  findFirstEqFrom l q 0

/-- Comparison on the `(start, end)` sort key of staged edits
(`sorted(self._edits, key=lambda x: (x[0], x[1]))`). -/
def editLe (x y : Int × Int × String) : Prop :=
  x.1 < y.1 ∨ (x.1 = y.1 ∧ x.2.1 ≤ y.2.1)

instance : DecidableRel editLe := fun x y => by
  unfold editLe; exact inferInstance

/-- The edit-materialization loop of `MutableTokens.get_edited_tokens`:
copy through unedited spans, substitute replacement tokens for edited spans,
and render `NO_SUGGESTIONS` replacements as the original covered tokens
unless `highlight` is set. -/
def getEditedTokensGo (toks : List String) (highlight : Bool) :
    List (Int × Int × String) → Int → List String → List String
  | [], i, result => result ++ pySliceFrom toks i
  | (b, e, val) :: rest, i, result =>
    let result := result ++ pySlice toks i b
    let result :=
      if ¬ highlight ∧ hasSub val NO_SUGGESTIONS then result ++ pySlice toks b e
      else if val ≠ "" then result ++ splitSp val
      else result
    getEditedTokensGo toks highlight rest e result

/-- `MutableTokens.get_edited_tokens`: apply a batch of staged edits,
sorted (stably) by `(start, end)`. -/
def getEditedTokens (toks : List String) (edits : List (Int × Int × String))
    (highlight : Bool) : List String :=
  getEditedTokensGo toks highlight (List.insertionSort editLe edits) 0 []

/-- Test that the first segment is strictly inside the second one
(`strictly_inside` of `span_intersect`). -/
def strictlyInside (a b x y : Int) : Bool :=
  decide (x < a ∧ a ≤ b ∧ b < y)

/-- The indexed scan of `span_intersect`. -/
def spanIntersectGo : List (Int × Int) → Int → Int → Nat → Int
  | [], _, _, _ => -1
  | (b, e) :: rest, begin_, end_, idx =>
    let overlap := max 0 (min end_ e - max begin_ b)
    if overlap ≠ 0 then (idx : Int)
    else if strictlyInside b e begin_ end_ then (idx : Int)
    else if strictlyInside begin_ end_ b e then (idx : Int)
    else spanIntersectGo rest begin_ end_ (idx + 1)

/-- `span_intersect(spans, begin, end)`: index of a span intersecting the
half-open interval `[begin, end)`, or `-1`. -/
def spanIntersect (spans : List (Int × Int)) (begin_ end_ : Int) : Int :=
  spanIntersectGo spans begin_ end_ 0

/-- The per-annotation test of `AnnotatedTokens._get_overlaps`: the span
intersects the queried range, or both are zero-length at the identical
coordinate. -/
def overlapsWith (start end_ : Int) (ann : TokenAnnot) : Bool :=
  spanIntersect [(ann.start, ann.end_)] start end_ ≠ -1 ∨
    (start = end_ ∧ ann.start = ann.end_ ∧ start = ann.start)

/-- `AnnotatedTokens._get_overlaps`: all annotations whose span intersects
the given range, where two zero-length annotations at the identical
coordinate also count as overlapping. -/
def getOverlaps (t : AnnotatedTokens) (start end_ : Int) : List TokenAnnot :=
  t.annotations.filter (overlapsWith start end_)

/-- `AnnotatedTokens.remove`: drop the first `__eq__`-equal annotation,
raising `ValueError` when none is present. -/
def removeAnnot (t : AnnotatedTokens) (q : TokenAnnot) : Except PyErr AnnotatedTokens :=
  match findFirstEq t.annotations q with
  | some idx => .ok ⟨t.tokens, t.annotations.eraseIdx idx⟩
  | Option.none => .error .value

/-- `_unique_list`: keep only the first occurrence of each element. -/
def uniqueList (l : List String) : List String :=
  l.foldl (fun res x => if x ∈ res then res else res ++ [x]) []

/-- The body of `AnnotatedTokens.annotate` specialized to
`on_overlap=OnOverlap.ERROR`, the form invoked at the end of the
`merge_strict` / `merge_expand` handlers. -/
def annotateOnError (t : AnnotatedTokens) (start end_ : Int) (cv : CorrectValue)
    (meta : Meta) : Except PyErr AnnotatedTokens :=
  if start > end_ then .error .value
  else
    let bad := joinSp (pySlice t.tokens start end_)
    let sugg := normalizeSuggestions cv
    let newAnn : TokenAnnot := ⟨start, end_, bad, sugg, meta⟩
    if getOverlaps t start end_ = [] then
      .ok ⟨t.tokens, t.annotations ++ [newAnn]⟩
    else .error .overlap

/-- The `merge_strict` on-overlap handler: a 1-to-1 merge of two annotations
sharing the span exactly; the suggestion lists are concatenated and
deduplicated, the metadata dicts merged with the new one winning. -/
def mergeStrict (t : AnnotatedTokens) (overlapping : List TokenAnnot)
    (newAnn : TokenAnnot) : Except PyErr AnnotatedTokens :=
  if 1 < overlapping.length then .error .overlap
  else
    match overlapping with
    | [] => .error .index
    | existing :: _ =>
      if existing.start ≠ newAnn.start ∨ existing.end_ ≠ newAnn.end_ then
        .error .overlap
      else
        let sugg := uniqueList (existing.suggestions ++ newAnn.suggestions)
        let meta := dictMerge existing.meta newAnn.meta
        match removeAnnot t existing with
        | .error e => .error e
        | .ok t' => annotateOnError t' newAnn.start newAnn.end_ (.list sugg) meta

/-- The `merge_expand` on-overlap handler.  After its 1-to-1 topology check
the source reads `text._text[start : annotation.start]`, but the class
`AnnotatedTokens` defines no attribute `_text` (only `_tokens`), so every
call that reaches that line raises `AttributeError`. -/
def mergeExpand (_t : AnnotatedTokens) (overlapping : List TokenAnnot)
    (_newAnn : TokenAnnot) : Except PyErr AnnotatedTokens :=
  if 1 < overlapping.length then .error .overlap
  else
    match overlapping with
    | [] => .error .index
    | _existing :: _ => .error .attr

/-- Removal of every annotation of the list, as in the `OVERRIDE` branch of
`annotate`. -/
def removeAll : AnnotatedTokens → List TokenAnnot → Except PyErr AnnotatedTokens
  | t, [] => .ok t
  | t, a :: rest =>
    match removeAnnot t a with
    | .ok t' => removeAll t' rest
    | .error e => .error e

/-- `AnnotatedTokens.annotate(start, end, correct_value, meta, on_overlap)`.
Every failure path of `annotate` fires before the buffer is mutated, so the
plain `Except PyErr _` form is faithful. -/
def annotate (t : AnnotatedTokens) (start end_ : Int) (cv : CorrectValue)
    (meta : Meta) (pol : OnOverlap) : Except PyErr AnnotatedTokens :=
  if start > end_ then .error .value
  else
    let bad := joinSp (pySlice t.tokens start end_)
    let sugg := normalizeSuggestions cv
    let newAnn : TokenAnnot := ⟨start, end_, bad, sugg, meta⟩
    let overlapping := getOverlaps t start end_
    if overlapping = [] then
      .ok ⟨t.tokens, t.annotations ++ [newAnn]⟩
    else
      match pol with
      | .save_old => .ok t
      | .override =>
        match removeAll t overlapping with
        | .ok t' => .ok ⟨t'.tokens, t'.annotations ++ [newAnn]⟩
        | .error e => .error e
      | .error => .error .overlap
      | .merge_strict => mergeStrict t overlapping newAnn
      | .merge_expand => mergeExpand t overlapping newAnn

/-- Token count of a replacement or source text as computed in
`apply_correction`: `len(s.split(" ")) if s else 0`. -/
def tokCount (s : String) : Nat :=
  if s ≠ "" then (splitSp s).length else 0

/-- The coordinate remap applied by `apply_correction` to a later
annotation: `a._replace(start=a.start + delta, end=a.end + delta)`. -/
def shiftAnnot (a : TokenAnnot) (delta : Int) : TokenAnnot :=
  { a with start := a.start + delta, end_ := a.end_ + delta }

/-- `AnnotatedTokens.apply_correction(annotation, level)`.  The source first
removes the annotation from the collection, then reads
`annotation.suggestions[level]` — which can raise `IndexError` after the
removal already happened — then rewrites the token list through a
`MutableTokens` edit, and finally remaps every remaining annotation whose
`start` is at or after the corrected one by `delta`.  The error value
carries the buffer state visible to a caller that catches the exception. -/
def applyCorrection (t : AnnotatedTokens) (annot : TokenAnnot) (level : Nat) :
    Except (PyErr × AnnotatedTokens) AnnotatedTokens :=
  match findFirstEq t.annotations annot with
  | Option.none => .error (.value, t)
  | some idx =>
    let anns := t.annotations.eraseIdx idx
    let replRes : Except (PyErr × AnnotatedTokens) String :=
      if annot.suggestions ≠ [] then
        match annot.suggestions[level]? with
        | some r => .ok r
        | Option.none => .error (.index, ⟨t.tokens, anns⟩)
      else .ok annot.source_text
    match replRes with
    | .error e => .error e
    | .ok repl =>
      let newTokens := getEditedTokens t.tokens [(annot.start, annot.end_, repl)] false
      let delta : Int := (tokCount repl : Int) - (tokCount annot.source_text : Int)
      let anns2 := anns.map (fun a =>
        if annot.start ≤ a.start then shiftAnnot a delta else a)
      .ok ⟨newTokens, anns2⟩

/-- `AnnotatedTokens.get_corrected_tokens(level)`: a fresh edit batch from
every annotation's `level`-th suggestion, annotations lacking that many
suggestions skipped (the `except IndexError: pass`). -/
def getCorrectedTokens (t : AnnotatedTokens) (level : Nat) : List String :=
  let edits := t.annotations.filterMap (fun ann =>
    ann.suggestions[level]?.map (fun s => (ann.start, ann.end_, s)))
  getEditedTokens t.tokens edits false

/-- `AnnotatedTokens.get_corrected_text(level)`. -/
def getCorrectedText (t : AnnotatedTokens) (level : Nat) : String :=
  joinSp (getCorrectedTokens t level)

/-- `TokenAnnotation._format_meta`. -/
def formatMeta (m : Meta) : String :=
  (m.map (fun kv => ":::" ++ kv.1 ++ "=" ++ kv.2)).foldl (fun a b => a ++ b) ""

/-- `TokenAnnotation.to_str`: `{source=>sugg1|sugg2...:::k=v}`, with the
`NO_SUGGESTIONS` placeholder when the suggestion list is empty. -/
def annotToStr (a : TokenAnnot) (withMeta : Bool) : String :=
  let repl := if a.suggestions ≠ [] then pyJoin ("|") a.suggestions else NO_SUGGESTIONS
  let metaText := if withMeta then formatMeta a.meta else ""
  "\x7b" ++ a.source_text ++ "=>" ++ repl ++ metaText ++ "\x7d"

/-- `AnnotatedTokens.get_annotated_text(with_meta)`: replace every annotated
span by its bracket rendering and materialize with `highlight=True`. -/
def getAnnotatedText (t : AnnotatedTokens) (withMeta : Bool) : String :=
  let edits := t.annotations.map (fun ann =>
    (ann.start, ann.end_, annotToStr ann withMeta))
  joinSp (getEditedTokens t.tokens edits true)

/-- The insertion loop of `AnnotatedTokens.combine`: each annotation of the
other buffer is fed back through `annotate` under the chosen policy; an
`annotate` failure propagates with the partially-combined state. -/
def combineGo (pol : OnOverlap) :
    List TokenAnnot → AnnotatedTokens → Except (PyErr × AnnotatedTokens) AnnotatedTokens
  | [], acc => .ok acc
  | ann :: rest, acc =>
    match annotate acc ann.start ann.end_ (.list ann.suggestions) ann.meta pol with
    | .ok acc' => combineGo pol rest acc'
    | .error e => .error (e, acc)

/-- `AnnotatedTokens.combine(other, discard_overlap)`: requires the two
buffers' original *texts* (`get_original_text`, i.e. the space-joined
tokens) to coincide, then inserts every annotation of `other` under
`save_old` (when `discard_overlap`) or `error`. -/
def combine (t other : AnnotatedTokens) (discardOverlap : Bool) :
    Except (PyErr × AnnotatedTokens) AnnotatedTokens :=
  if joinSp t.tokens ≠ joinSp other.tokens then .error (.value, t)
  else
    combineGo (if discardOverlap then OnOverlap.save_old else OnOverlap.error)
      other.annotations t

/-- The generator `AnnotatedTokens.iter_annotations`, run against a caller
body `f` (visit number, buffer, visited annotation ↦ new buffer): tracks the
collection size and re-synchronizes the index by the net change in count
after each yield.  `none` means fuel ran out or the index read failed. -/
def iterRun (f : Nat → AnnotatedTokens → TokenAnnot → AnnotatedTokens) :
    Nat → AnnotatedTokens → Int → Int → Nat →
      Option (List TokenAnnot × AnnotatedTokens)
  | 0, _, _, _, _ => Option.none
  | fuel + 1, t, i, nAnns, k =>
    if i < nAnns then
      match pyGet t.annotations i with
      | Option.none => Option.none
      | some a =>
        let t' := f k t a
        let delta : Int := (t'.annotations.length : Int) - nAnns
        match iterRun f fuel t' (i + delta + 1) (t'.annotations.length : Int) (k + 1) with
        | Option.none => Option.none
        | some (vs, tF) => some (a :: vs, tF)
    else some ([], t)

/-- The loop body used to exercise `iter_annotations` against the two
mutations its contract allows: at visit `k` the caller either consumes the
current annotation via `apply_correction(..., level=0)` (when `c k`) or
removes it. -/
def iterBody (c : Nat → Bool) (k : Nat) (t : AnnotatedTokens) (a : TokenAnnot) :
    AnnotatedTokens :=
  if c k then
    match applyCorrection t a 0 with
    | .ok t' => t'
    | .error e => e.2
  else
    match removeAnnot t a with
    | .ok t' => t'
    | .error _ => t

/-- The fields of an annotation that are invariant under the coordinate
remap of `apply_correction`. -/
def annotFields (a : TokenAnnot) : String × List String × Meta :=
  (a.source_text, a.suggestions, a.meta)

/-
Embedding of the parts of CPython's `difflib.SequenceMatcher` exercised by
`scripts/utils/align.py`, which constructs `SequenceMatcher(None, tokens,
translation_tokens)` and consumes `get_opcodes()`.  `isjunk` is always
`None` there, so `bjunk` is empty; `autojunk` keeps its default `True`.
-/

/-- `b2j.setdefault(elt, []).append(i)` of `SequenceMatcher.__chain_b`. -/
def setdefaultAppend : List (String × List Nat) → String → Nat → List (String × List Nat)
  | [], x, i => [(x, [i])]
  | (y, l) :: rest, x, i =>
    if y = x then (y, l ++ [i]) :: rest else (y, l) :: setdefaultAppend rest x i

/-- The `for i, elt in enumerate(b)` fold of `__chain_b`, indices from `k`. -/
def chainAux (k : Nat) : List String → List (String × List Nat) → List (String × List Nat)
  | [], acc => acc
  | x :: xs, acc => chainAux (k + 1) xs (setdefaultAppend acc x k)

/-- `b2j` before the autojunk purge. -/
def chainBFull (b : List String) : List (String × List Nat) :=
  chainAux 0 b []

/-- `__chain_b` with `isjunk=None` (so the junk purge is skipped) and
`autojunk=True`: for `len(b) >= 200`, every element occurring more than
`len(b) // 100 + 1` times is deleted from `b2j` as "popular". -/
def chainB (b : List String) : List (String × List Nat) :=
  let b2j := chainBFull b
  if 200 ≤ b.length then
    let ntest := b.length / 100 + 1
    b2j.filter (fun kv => ¬ ntest < kv.2.length)
  else b2j

/-- `b2j.get(x, nothing)` with `nothing = []`. -/
def b2jGet (b2j : List (String × List Nat)) (x : String) : List Nat :=
  (assocLookup b2j x).getD []

/-- Lookup in the integer-keyed `j2len` dict. -/
def natLookup : List (Nat × Nat) → Nat → Option Nat
  | [], _ => Option.none
  | (k, v) :: rest, key => if k = key then some v else natLookup rest key

/-- `newj2len[j] = k` (set-or-insert). -/
def natSet : List (Nat × Nat) → Nat → Nat → List (Nat × Nat)
  | [], key, val => [(key, val)]
  | (k, v) :: rest, key, val =>
    if k = key then (k, val) :: rest else (k, v) :: natSet rest key val

/-- `j2len.get(j - 1, 0)`: at `j = 0` the Python key is `-1`, which is never
present, so the default `0` is returned. -/
def j2lenGetPred (j2len : List (Nat × Nat)) (j : Nat) : Nat :=
  match j with
  | 0 => 0
  | j' + 1 => (natLookup j2len j').getD 0

/-- The inner `for j in b2j.get(a[i], nothing)` loop of
`find_longest_match`: `j < blo` skips (`continue`), `j >= bhi` stops
(`break`), otherwise `newj2len[j] = k = j2len.get(j-1, 0) + 1` and the best
triple advances when `k > bestsize`.  Every stored chain length satisfies
`k <= i + 1` and `k <= j + 1` (each entry extends a previous row's entry by
one), so the natural subtractions `i + 1 - k` and `j + 1 - k` agree with
Python's `i - k + 1` and `j - k + 1`. -/
def innerLoop (i blo bhi : Nat) (j2len : List (Nat × Nat)) :
    List Nat → List (Nat × Nat) → Nat × Nat × Nat → List (Nat × Nat) × (Nat × Nat × Nat)
  | [], newj2len, best => (newj2len, best)
  | j :: js, newj2len, best =>
    if j < blo then innerLoop i blo bhi j2len js newj2len best
    else if bhi ≤ j then (newj2len, best)
    else
      let k := j2lenGetPred j2len j + 1
      let newj2len' := natSet newj2len j k
      let best' := if best.2.2 < k then (i + 1 - k, j + 1 - k, k) else best
      innerLoop i blo bhi j2len js newj2len' best'

/-- The first (non-junk) extension loop of `find_longest_match`; with
`isjunk=None` the `not isbjunk(...)` test always passes, and the later junk
extension loops never fire.  The loop decrements `besti` while
`besti > alo`, so it runs at most `besti` times, bounding the fuel. -/
def extendLeft (a b : List String) (alo blo : Nat) :
    Nat → Nat → Nat → Nat → Nat × Nat × Nat
  | 0, besti, bestj, bestsize => (besti, bestj, bestsize)
  | fuel + 1, besti, bestj, bestsize =>
    if alo < besti ∧ blo < bestj ∧ a.getD (besti - 1) "" = b.getD (bestj - 1) "" then
      extendLeft a b alo blo fuel (besti - 1) (bestj - 1) (bestsize + 1)
    else (besti, bestj, bestsize)

/-- The second (non-junk) extension loop of `find_longest_match`; it
increments `bestsize` while `besti + bestsize < ahi`, so it runs at most
`ahi` times. -/
def extendRight (a b : List String) (ahi bhi : Nat) :
    Nat → Nat → Nat → Nat → Nat
  | 0, _, _, bestsize => bestsize
  | fuel + 1, besti, bestj, bestsize =>
    if besti + bestsize < ahi ∧ bestj + bestsize < bhi ∧
        a.getD (besti + bestsize) "" = b.getD (bestj + bestsize) "" then
      extendRight a b ahi bhi fuel besti bestj (bestsize + 1)
    else bestsize

/-- `SequenceMatcher.find_longest_match(alo, ahi, blo, bhi)` with
`isjunk=None`: the `j2len` dynamic program over rows `alo..ahi-1` starting
from `besti, bestj, bestsize = alo, blo, 0`, followed by the two non-junk
extension loops (the junk extension loops are no-ops since `bjunk` is
empty). -/
def findLongestMatch (a b : List String) (b2j : List (String × List Nat))
    (alo ahi blo bhi : Nat) : Nat × Nat × Nat :=
  let step := fun (st : List (Nat × Nat) × (Nat × Nat × Nat)) (i : Nat) =>
    innerLoop i blo bhi st.1 (b2jGet b2j (a.getD i "")) [] st.2
  let res := (List.range' alo (ahi - alo)).foldl step ([], (alo, blo, 0))
  let bi := res.2.1
  let bj := res.2.2.1
  let bs := res.2.2.2
  let ext := extendLeft a b alo blo (bi + 1) bi bj bs
  let bestsize := extendRight a b ahi bhi (ahi + 1) ext.1 ext.2.1 ext.2.2
  (ext.1, ext.2.1, bestsize)

/-- Lexicographic comparison on matching-block triples
(`matching_blocks.sort()`). -/
def tripleLe (x y : Nat × Nat × Nat) : Prop :=
  x.1 < y.1 ∨ (x.1 = y.1 ∧ (x.2.1 < y.2.1 ∨ (x.2.1 = y.2.1 ∧ x.2.2 ≤ y.2.2)))

instance : DecidableRel tripleLe := fun x y => by
  unfold tripleLe; exact inferInstance

/-- The queue loop of `get_matching_blocks`.  Python's
`queue.append` / `queue.pop()` form a LIFO stack, modelled at the list
head; after a pop the right sub-range (popped first in Python) sits above
the left one.  Each iteration strictly shrinks the total span held in the
queue, so fuel `la + lb + 2` always suffices for the initial queue
`[(0, la, 0, lb)]`. -/
def gmbLoop (a b : List String) (b2j : List (String × List Nat)) :
    Nat → List (Nat × Nat × Nat × Nat) → List (Nat × Nat × Nat) → List (Nat × Nat × Nat)
  | 0, _, acc => acc
  | _ + 1, [], acc => acc
  | fuel + 1, (alo, ahi, blo, bhi) :: queue, acc =>
    let m := findLongestMatch a b b2j alo ahi blo bhi
    let i := m.1
    let j := m.2.1
    let k := m.2.2
    if k ≠ 0 then
      let right := if i + k < ahi ∧ j + k < bhi then [(i + k, ahi, j + k, bhi)] else []
      let left := if alo < i ∧ blo < j then [(alo, i, blo, j)] else []
      gmbLoop a b b2j fuel (right ++ left ++ queue) (acc ++ [(i, j, k)])
    else gmbLoop a b b2j fuel queue acc

/-- The adjacent-block merge at the end of `get_matching_blocks`, starting
from `i1 = j1 = k1 = 0`. -/
def mergeAdjGo : Nat × Nat × Nat → List (Nat × Nat × Nat) → List (Nat × Nat × Nat)
  | (i1, j1, k1), [] => if k1 ≠ 0 then [(i1, j1, k1)] else []
  | (i1, j1, k1), (i2, j2, k2) :: rest =>
    if i1 + k1 = i2 ∧ j1 + k1 = j2 then mergeAdjGo (i1, j1, k1 + k2) rest
    else (if k1 ≠ 0 then [(i1, j1, k1)] else []) ++ mergeAdjGo (i2, j2, k2) rest

/-- `SequenceMatcher.get_matching_blocks()`, with the terminal
`(la, lb, 0)` sentinel appended. -/
def getMatchingBlocks (a b : List String) : List (Nat × Nat × Nat) :=
  let b2j := chainB b
  let blocks := gmbLoop a b b2j (a.length + b.length + 2) [(0, a.length, 0, b.length)] []
  mergeAdjGo (0, 0, 0) (List.insertionSort tripleLe blocks) ++ [(a.length, b.length, 0)]

/-- The tag/advance fold of `get_opcodes` over the matching blocks. -/
def getOpcodesGo : List (Nat × Nat × Nat) → Nat → Nat → List (String × Nat × Nat × Nat × Nat)
  | [], _, _ => []
  | (ai, bj, size) :: rest, i, j =>
    let tag := if i < ai ∧ j < bj then "replace"
      else if i < ai then "delete"
      else if j < bj then "insert"
      else ""
    let first := if tag ≠ "" then [(tag, i, ai, j, bj)] else []
    let equalPart := if size ≠ 0 then [("equal", ai, ai + size, bj, bj + size)] else []
    first ++ equalPart ++ getOpcodesGo rest (ai + size) (bj + size)

/-- `SequenceMatcher(None, a, b).get_opcodes()`. -/
def getOpcodes (a b : List String) : List (String × Nat × Nat × Nat × Nat) :=
  getOpcodesGo (getMatchingBlocks a b) 0 0

/-- The slice `translation_tokens[j1:j2]` over natural opcode indices. -/
def natSlice {α : Type} (l : List α) (i j : Nat) : List α :=
  (l.drop i).take (j - i)

/-- `_gen_diffs` of `align.py`: every non-`equal` opcode yields its source
span with the space-joined target tokens as the replacement (the unused
`merge` parameter of the source is dropped). -/
def genDiffs (original translation : List String) : List (Nat × Nat × String) :=
  (getOpcodes original translation).filterMap (fun op =>
    if op.1 = "equal" then Option.none
    else some (op.2.1, op.2.2.1, joinSp (natSlice translation op.2.2.2.1 op.2.2.2.2)))

/-- The `annotate` fold of `align`. -/
def alignGo : List (Nat × Nat × String) → AnnotatedTokens → Except PyErr AnnotatedTokens
  | [], t => .ok t
  | (l, r, repl) :: rest, t =>
    match annotate t (l : Int) (r : Int) (.str repl) [] OnOverlap.error with
    | .ok t' => alignGo rest t'
    | .error e => .error e

/-- `align(source, target)` of `align.py` on pre-tokenized input (a raw
string argument is first split on whitespace by the source; the claims
below supply token lists directly). -/
def align (source target : List String) : Except PyErr AnnotatedTokens :=
  alignGo (genDiffs source target) ⟨source, []⟩

/-- Occurrence positions of `x` in a token list, offset by `k`
(proof-auxiliary characterization of the `b2j` mapping). -/
def positionsFrom (x : String) : Nat → List String → List Nat
  | _, [] => []
  | k, y :: ys => if y = x then k :: positionsFrom x (k + 1) ys else positionsFrom x (k + 1) ys

/-- Position `j` can participate in matching: its own token maps to a
nonempty `b2j` entry containing it (proof-auxiliary). -/
def rareAt (b2j : List (String × List Nat)) (b : List String) (j : Nat) : Prop :=
  j ∈ b2jGet b2j (b.getD j "")

instance (b2j : List (String × List Nat)) (b : List String) (j : Nat) :
    Decidable (rareAt b2j b j) := by
  unfold rareAt; exact inferInstance

/-- Length of the maximal run of matching-capable positions ending at `j`
(proof-auxiliary: it bounds every chain length the `j2len` dynamic program
can store in column or row `j`). -/
def colRun (b2j : List (String × List Nat)) (b : List String) : Nat → Nat
  | 0 => if rareAt b2j b 0 then 1 else 0
  | j + 1 => if rareAt b2j b (j + 1) then colRun b2j b j + 1 else 0

/-
Supporting lemmas.
-/

theorem annotEq_refl (a : TokenAnnot) : annotEq a a = true := by
  simp [annotEq]

theorem overlapsWith_of_span_eq (s e : Int) (ann : TokenAnnot) (hle : s ≤ e)
    (hs : ann.start = s) (he : ann.end_ = e) : overlapsWith s e ann = true := by
  rcases lt_or_eq_of_le hle with hlt | heq
  · simp [overlapsWith, spanIntersect, spanIntersectGo, hs, he, hlt]
  · subst heq
    simp [overlapsWith, hs, he]

theorem getOverlaps_append (tok : List String) (l1 l2 : List TokenAnnot) (s e : Int) :
    getOverlaps ⟨tok, l1 ++ l2⟩ s e = getOverlaps ⟨tok, l1⟩ s e ++ getOverlaps ⟨tok, l2⟩ s e := by
  simp [getOverlaps, List.filter_append]

theorem mem_getOverlaps_of_span_eq (t : AnnotatedTokens) (s e : Int) (hle : s ≤ e)
    (a : TokenAnnot) (ha : a ∈ t.annotations) (hs : a.start = s) (he : a.end_ = e) :
    a ∈ getOverlaps t s e := by
  simp only [getOverlaps, List.mem_filter]
  exact ⟨ha, overlapsWith_of_span_eq s e a hle hs he⟩

theorem annotate_error_ok_iff (t : AnnotatedTokens) (s e : Int) (cv : CorrectValue)
    (m : Meta) (t' : AnnotatedTokens) :
    annotate t s e cv m OnOverlap.error = Except.ok t' ↔
      (¬ s > e ∧ getOverlaps t s e = [] ∧
        t' = ⟨t.tokens, t.annotations ++
          [⟨s, e, joinSp (pySlice t.tokens s e), normalizeSuggestions cv, m⟩]⟩) := by
  unfold annotate
  by_cases hgt : s > e
  · simp [hgt]
  · simp only [hgt, if_false]
    by_cases hov : getOverlaps t s e = []
    · simp [hov, eq_comm]
    · simp [hov]

/-- C8: annotating the zero-length span `(p, p)` a second time under the
default `error` policy fails with `OverlapError`: a successful first
insertion leaves a zero-length annotation at the identical coordinate,
which `_get_overlaps` counts as overlapping. -/
theorem c8_double_insertion_overlap (t t' : AnnotatedTokens) (p : Int)
    (cv cv' : CorrectValue) (m m' : Meta)
    (h : annotate t p p cv m OnOverlap.error = Except.ok t') :
    annotate t' p p cv' m' OnOverlap.error = Except.error PyErr.overlap := by
  rw [annotate_error_ok_iff] at h
  obtain ⟨-, hov, rfl⟩ := h
  unfold annotate
  have hne : getOverlaps ⟨t.tokens, t.annotations ++
      [⟨p, p, joinSp (pySlice t.tokens p p), normalizeSuggestions cv, m⟩]⟩ p p ≠ [] := by
    rw [getOverlaps_append]
    have : overlapsWith p p ⟨p, p, joinSp (pySlice t.tokens p p), normalizeSuggestions cv, m⟩ = true :=
      overlapsWith_of_span_eq p p _ le_rfl rfl rfl
    simp [getOverlaps, this]
  simp [hne]

/-- C8 witness: a concrete buffer on which the first zero-length insertion
succeeds and the second fails with `OverlapError`. -/
theorem c8_witness :
    annotate ⟨["a"], []⟩ 0 0 (CorrectValue.str "x") [] OnOverlap.error =
      Except.ok ⟨["a"], [⟨0, 0, "", ["x"], []⟩]⟩ ∧
    annotate ⟨["a"], [⟨0, 0, "", ["x"], []⟩]⟩ 0 0 (CorrectValue.str "y") [] OnOverlap.error =
      Except.error PyErr.overlap := by
  refine ⟨by decide, ?_⟩
  exact c8_double_insertion_overlap ⟨["a"], []⟩ _ 0 (CorrectValue.str "x")
    (CorrectValue.str "y") [] [] (by decide)

/-- C3: the `merge_expand` on-overlap handler cannot merge at all when
invoked through `AnnotatedTokens.annotate`: with exactly one overlapping
annotation it raises `AttributeError`, because the handler reads
`text._text`, an attribute the `AnnotatedTokens` class never defines (the
class stores its tokens in `_tokens`).  Concretely, merging `(1, 3)` into a
buffer holding one overlapping annotation over `(0, 2)` fails instead of
producing the expanded annotation the spec describes. -/
theorem c3_merge_expand_attribute_error :
    annotate ⟨["a", "b", "c"], [⟨0, 2, "a b", ["X"], []⟩]⟩ 1 3
        (CorrectValue.str "Y") [] OnOverlap.merge_expand = Except.error PyErr.attr ∧
    (∀ (t : AnnotatedTokens) (existing newAnn : TokenAnnot),
      mergeExpand t [existing] newAnn = Except.error PyErr.attr) := by
  exact ⟨by decide, fun t existing newAnn => by simp [mergeExpand]⟩

/-
Claim C2: apply_correction atomicity.
-/

/-- C2 counterexample: requesting level 1 of a one-suggestion annotation
fails with `IndexError` *after* the annotation has been removed — the buffer
the caller observes has the token list unmodified but the annotation gone,
so `apply_correction` is not atomic on failure. -/
theorem c2_counterexample :
    applyCorrection ⟨["a", "b"], [⟨0, 1, "a", ["x"], []⟩]⟩ ⟨0, 1, "a", ["x"], []⟩ 1 =
      Except.error (PyErr.index, ⟨["a", "b"], []⟩) ∧
    (⟨["a", "b"], []⟩ : AnnotatedTokens).tokens =
      (⟨["a", "b"], [⟨0, 1, "a", ["x"], []⟩]⟩ : AnnotatedTokens).tokens ∧
    (⟨["a", "b"], []⟩ : AnnotatedTokens).annotations ≠
      (⟨["a", "b"], [⟨0, 1, "a", ["x"], []⟩]⟩ : AnnotatedTokens).annotations := by
  decide

/-- C2 amended: `apply_correction` is atomic except on a level index with no
corresponding suggestion.  A call on an absent annotation fails with
`ValueError` before any mutation; a call with an empty suggestion list or an
in-range level fully succeeds; but a call with a nonempty suggestion list
and an out-of-range level fails with `IndexError` leaving the annotation
removed while the token list is unmodified. -/
theorem c2_apply_correction_atomicity (t : AnnotatedTokens) (annot : TokenAnnot)
    (level : Nat) :
    (findFirstEq t.annotations annot = Option.none →
      applyCorrection t annot level = Except.error (PyErr.value, t)) ∧
    (∀ idx, findFirstEq t.annotations annot = some idx →
      ((annot.suggestions = [] ∨ level < annot.suggestions.length) →
        (applyCorrection t annot level).isOk = true) ∧
      (annot.suggestions ≠ [] → annot.suggestions.length ≤ level →
        applyCorrection t annot level =
          Except.error (PyErr.index, ⟨t.tokens, t.annotations.eraseIdx idx⟩))) := by
  constructor
  · intro h
    simp [applyCorrection, h]
  · intro idx h
    constructor
    · intro hc
      by_cases hs : annot.suggestions = []
      · simp [applyCorrection, h, hs, Except.isOk, Except.toBool]
      · have hlen : level < annot.suggestions.length := by
          rcases hc with hc | hc
          · exact absurd hc hs
          · exact hc
        have hg := List.getElem?_eq_getElem hlen
        simp [applyCorrection, h, hs, hg, Except.isOk, Except.toBool]
    · intro hs hlev
      have hg : annot.suggestions[level]? = Option.none := List.getElem?_eq_none hlev
      simp [applyCorrection, h, hs, hg]

/-- C2 witness: the amended theorem applied at a concrete buffer, producing
the removed-but-unedited failure state at level 1. -/
theorem c2_witness :
    findFirstEq (⟨["a", "b"], [⟨0, 1, "a", ["x"], []⟩]⟩ : AnnotatedTokens).annotations
        ⟨0, 1, "a", ["x"], []⟩ = some 0 ∧
    applyCorrection ⟨["a", "b"], [⟨0, 1, "a", ["x"], []⟩]⟩ ⟨0, 1, "a", ["x"], []⟩ 1 =
      Except.error (PyErr.index,
        ⟨(⟨["a", "b"], [⟨0, 1, "a", ["x"], []⟩]⟩ : AnnotatedTokens).tokens,
          (⟨["a", "b"], [⟨0, 1, "a", ["x"], []⟩]⟩ : AnnotatedTokens).annotations.eraseIdx 0⟩) :=
  ⟨by decide,
    ((c2_apply_correction_atomicity ⟨["a", "b"], [⟨0, 1, "a", ["x"], []⟩]⟩
      ⟨0, 1, "a", ["x"], []⟩ 1).2 0 (by decide)).2 (by decide) (by decide)⟩

/-
Claim C10: removal by structural value.
-/

instance : IsTotal (String × String) metaLe where
  total a b := by
    unfold metaLe
    rcases lt_trichotomy a.1 b.1 with h | h | h
    · exact Or.inl (Or.inl h)
    · rcases le_total a.2 b.2 with h2 | h2
      · exact Or.inl (Or.inr ⟨h, h2⟩)
      · exact Or.inr (Or.inr ⟨h.symm, h2⟩)
    · exact Or.inr (Or.inl h)

instance : IsTrans (String × String) metaLe where
  trans a b c hab hbc := by
    unfold metaLe at *
    rcases hab with h | ⟨h, h2⟩ <;> rcases hbc with g | ⟨g, g2⟩
    · exact Or.inl (h.trans g)
    · exact Or.inl (g ▸ h)
    · exact Or.inl (h ▸ g)
    · exact Or.inr ⟨h.trans g, h2.trans g2⟩

instance : IsAntisymm (String × String) metaLe where
  antisymm a b hab hba := by
    unfold metaLe at *
    rcases hab with h | ⟨h, h2⟩ <;> rcases hba with g | ⟨g, g2⟩
    · exact absurd g (lt_asymm h)
    · exact absurd h (g ▸ lt_irrefl _)
    · exact absurd g (h ▸ lt_irrefl _)
    · exact Prod.ext h (le_antisymm h2 g2)

theorem sortedItems_perm {m1 m2 : Meta} (h : m1.Perm m2) :
    sortedItems m1 = sortedItems m2 := by
  refine List.eq_of_perm_of_sorted ?_ (List.sorted_insertionSort metaLe m1)
    (List.sorted_insertionSort metaLe m2)
  exact (List.perm_insertionSort metaLe m1).trans
    (h.trans (List.perm_insertionSort metaLe m2).symm)

theorem findFirstEqFrom_isSome {l : List TokenAnnot} {a q : TokenAnnot}
    (ha : a ∈ l) (heq : annotEq a q = true) :
    ∀ k, ∃ idx, findFirstEqFrom l q k = some idx := by
  induction l with
  | nil => cases ha
  | cons x rest ih =>
    intro k
    by_cases hx : annotEq x q
    · exact ⟨k, by simp [findFirstEqFrom, hx]⟩
    · rcases List.mem_cons.mp ha with rfl | hmem
      · exact absurd heq hx
      · obtain ⟨idx, hidx⟩ := ih hmem (k + 1)
        exact ⟨idx, by simp [findFirstEqFrom, hx, hidx]⟩

/-- C10: removal matches annotations by structural value (the namedtuple
`__eq__`), never by object identity: any instance agreeing on coordinates,
source text, suggestions, and metadata key-value pairs (in any order) is
accepted by `remove`, which drops the first structurally equal annotation,
and by `apply_correction` (level 0). -/
theorem c10_remove_by_value (t : AnnotatedTokens) (a q : TokenAnnot)
    (ha : a ∈ t.annotations) (h1 : a.start = q.start) (h2 : a.end_ = q.end_)
    (h3 : a.source_text = q.source_text) (h4 : a.suggestions = q.suggestions)
    (h5 : a.meta.Perm q.meta) :
    ∃ idx, findFirstEq t.annotations q = some idx ∧
      removeAnnot t q = Except.ok ⟨t.tokens, t.annotations.eraseIdx idx⟩ ∧
      (applyCorrection t q 0).isOk = true := by
  have heq : annotEq a q = true := by
    simp [annotEq, h1, h2, h3, h4, sortedItems_perm h5]
  obtain ⟨idx, hidx⟩ := findFirstEqFrom_isSome ha heq 0
  refine ⟨idx, hidx, ?_, ?_⟩
  · simp [removeAnnot, findFirstEq, hidx]
  · by_cases hs : q.suggestions = []
    · simp [applyCorrection, findFirstEq, hidx, hs, Except.isOk, Except.toBool]
    · have hg := List.getElem?_eq_getElem (List.length_pos.mpr hs)
      simp [applyCorrection, findFirstEq, hidx, hs, hg, Except.isOk, Except.toBool]

/-- C10 witness: a stored annotation with metadata `[(k1,v1),(k2,v2)]` is
removed by a query instance carrying the same pairs in the opposite order. -/
theorem c10_witness :
    ([("k1", "v1"), ("k2", "v2")] : Meta).Perm [("k2", "v2"), ("k1", "v1")] ∧
    (∃ idx, findFirstEq (⟨["a"], [⟨0, 1, "a", ["x"], [("k1", "v1"), ("k2", "v2")]⟩]⟩ :
        AnnotatedTokens).annotations ⟨0, 1, "a", ["x"], [("k2", "v2"), ("k1", "v1")]⟩ = some idx ∧
      removeAnnot ⟨["a"], [⟨0, 1, "a", ["x"], [("k1", "v1"), ("k2", "v2")]⟩]⟩
          ⟨0, 1, "a", ["x"], [("k2", "v2"), ("k1", "v1")]⟩ =
        Except.ok ⟨(⟨["a"], [⟨0, 1, "a", ["x"], [("k1", "v1"), ("k2", "v2")]⟩]⟩ :
            AnnotatedTokens).tokens,
          (⟨["a"], [⟨0, 1, "a", ["x"], [("k1", "v1"), ("k2", "v2")]⟩]⟩ :
            AnnotatedTokens).annotations.eraseIdx idx⟩ ∧
      (applyCorrection ⟨["a"], [⟨0, 1, "a", ["x"], [("k1", "v1"), ("k2", "v2")]⟩]⟩
        ⟨0, 1, "a", ["x"], [("k2", "v2"), ("k1", "v1")]⟩ 0).isOk = true) :=
  ⟨by decide,
    c10_remove_by_value ⟨["a"], [⟨0, 1, "a", ["x"], [("k1", "v1"), ("k2", "v2")]⟩]⟩
      ⟨0, 1, "a", ["x"], [("k1", "v1"), ("k2", "v2")]⟩
      ⟨0, 1, "a", ["x"], [("k2", "v2"), ("k1", "v1")]⟩
      (by decide) rfl rfl rfl rfl (by decide)⟩

/-
Claim C1: apply_correction coordinate remapping.
-/

/-- C1: after a successful `apply_correction(annotation, level)`, every
other remaining annotation whose `start` is at or after the corrected
annotation's `start` has both coordinates shifted by
`delta = token count of the applied replacement - token count of the
corrected annotation's source text`, while every annotation starting
strictly before is left untouched — including one that straddles the
corrected span (starts before it but ends after its start). -/
theorem c1_apply_correction_shift (t : AnnotatedTokens) (annot : TokenAnnot)
    (level : Nat) (t' : AnnotatedTokens)
    (h : applyCorrection t annot level = Except.ok t') :
    ∃ idx, findFirstEq t.annotations annot = some idx ∧
      (let rest := t.annotations.eraseIdx idx
       let repl := if annot.suggestions = [] then annot.source_text
                   else annot.suggestions.getD level ""
       let delta : Int := (tokCount repl : Int) - (tokCount annot.source_text : Int)
       t'.annotations.length = rest.length ∧
       ∀ (i : Nat) (a : TokenAnnot), rest[i]? = some a →
         t'.annotations[i]? =
           some (if annot.start ≤ a.start then shiftAnnot a delta else a)) := by
  cases hfind : findFirstEq t.annotations annot with
  | none => simp [applyCorrection, hfind] at h
  | some idx =>
    refine ⟨idx, rfl, ?_⟩
    by_cases hs : annot.suggestions = []
    · simp only [applyCorrection, hfind, hs, ne_eq, not_true_eq_false, if_false,
        reduceCtorEq, ite_true, Except.ok.injEq] at h
      subst h
      refine ⟨by simp, ?_⟩
      intro i a hi
      simp [hs, List.getElem?_map, hi]
    · cases hg : annot.suggestions[level]? with
      | none => simp [applyCorrection, hfind, hs, hg] at h
      | some r =>
        simp only [applyCorrection, hfind, hs, ne_eq, not_false_eq_true, if_true, hg,
          Except.ok.injEq] at h
        subst h
        have hr : annot.suggestions.getD level "" = r := by
          simp [List.getD, hg]
        refine ⟨by simp, ?_⟩
        intro i a hi
        simp [hs, hr, List.getElem?_map, hi, hg]

/-- C1 witness: correcting the middle annotation of a four-annotation buffer
with a two-token replacement (`delta = 1`) shifts only the annotations that
start at or after it; the straddling annotation over `(0, 3)` stays put. -/
theorem c1_witness :
    applyCorrection
        ⟨["a", "b", "c", "d"],
          [⟨0, 1, "a", ["A"], []⟩, ⟨0, 3, "a b c", ["Q"], []⟩,
            ⟨1, 2, "b", ["x y"], []⟩, ⟨2, 3, "c", ["C"], []⟩]⟩
        ⟨1, 2, "b", ["x y"], []⟩ 0 =
      Except.ok ⟨["a", "x", "y", "c", "d"],
        [⟨0, 1, "a", ["A"], []⟩, ⟨0, 3, "a b c", ["Q"], []⟩, ⟨3, 4, "c", ["C"], []⟩]⟩ ∧
    (∃ idx, findFirstEq
        (⟨["a", "b", "c", "d"],
          [⟨0, 1, "a", ["A"], []⟩, ⟨0, 3, "a b c", ["Q"], []⟩,
            ⟨1, 2, "b", ["x y"], []⟩, ⟨2, 3, "c", ["C"], []⟩]⟩ : AnnotatedTokens).annotations
        ⟨1, 2, "b", ["x y"], []⟩ = some idx ∧
      (let rest := (⟨["a", "b", "c", "d"],
          [⟨0, 1, "a", ["A"], []⟩, ⟨0, 3, "a b c", ["Q"], []⟩,
            ⟨1, 2, "b", ["x y"], []⟩, ⟨2, 3, "c", ["C"], []⟩]⟩ :
          AnnotatedTokens).annotations.eraseIdx idx
       let repl := if (⟨1, 2, "b", ["x y"], []⟩ : TokenAnnot).suggestions = []
                   then (⟨1, 2, "b", ["x y"], []⟩ : TokenAnnot).source_text
                   else (⟨1, 2, "b", ["x y"], []⟩ : TokenAnnot).suggestions.getD 0 ""
       let delta : Int := (tokCount repl : Int) -
         (tokCount (⟨1, 2, "b", ["x y"], []⟩ : TokenAnnot).source_text : Int)
       (⟨["a", "x", "y", "c", "d"],
          [⟨0, 1, "a", ["A"], []⟩, ⟨0, 3, "a b c", ["Q"], []⟩, ⟨3, 4, "c", ["C"], []⟩]⟩ :
            AnnotatedTokens).annotations.length = rest.length ∧
       ∀ (i : Nat) (a : TokenAnnot), rest[i]? = some a →
         (⟨["a", "x", "y", "c", "d"],
            [⟨0, 1, "a", ["A"], []⟩, ⟨0, 3, "a b c", ["Q"], []⟩, ⟨3, 4, "c", ["C"], []⟩]⟩ :
              AnnotatedTokens).annotations[i]? =
           some (if (⟨1, 2, "b", ["x y"], []⟩ : TokenAnnot).start ≤ a.start
                 then shiftAnnot a delta else a))) :=
  ⟨by decide,
    c1_apply_correction_shift
      ⟨["a", "b", "c", "d"],
        [⟨0, 1, "a", ["A"], []⟩, ⟨0, 3, "a b c", ["Q"], []⟩,
          ⟨1, 2, "b", ["x y"], []⟩, ⟨2, 3, "c", ["C"], []⟩]⟩
      ⟨1, 2, "b", ["x y"], []⟩ 0
      ⟨["a", "x", "y", "c", "d"],
        [⟨0, 1, "a", ["A"], []⟩, ⟨0, 3, "a b c", ["Q"], []⟩, ⟨3, 4, "c", ["C"], []⟩]⟩
      (by decide)⟩


/-
Claim C6: merge_strict produces the deduplicated union.
-/

theorem mem_foldl_uniqueStep (l : List String) :
    ∀ (acc : List String) (x : String),
      (x ∈ l.foldl (fun res y => if y ∈ res then res else res ++ [y]) acc ↔
        x ∈ acc ∨ x ∈ l) := by
  induction l with
  | nil => intro acc x; simp
  | cons y ys ih =>
    intro acc x
    by_cases hy : y ∈ acc
    · rw [List.foldl_cons, if_pos hy, ih]
      constructor
      · rintro (h | h)
        · exact Or.inl h
        · exact Or.inr (List.mem_cons_of_mem y h)
      · rintro (h | h)
        · exact Or.inl h
        · rcases List.mem_cons.mp h with rfl | h
          · exact Or.inl hy
          · exact Or.inr h
    · rw [List.foldl_cons, if_neg hy, ih]
      simp only [List.mem_append, List.mem_singleton, List.mem_cons]
      tauto

theorem mem_uniqueList (l : List String) (x : String) :
    x ∈ uniqueList l ↔ x ∈ l := by
  rw [uniqueList, mem_foldl_uniqueStep]
  simp

theorem annotEq_span {a b : TokenAnnot} (h : annotEq a b = true) :
    a.start = b.start ∧ a.end_ = b.end_ := by
  simp only [annotEq, decide_eq_true_eq] at h
  exact ⟨h.1, h.2.1⟩

theorem findFirstEqFrom_concat_self (l : List TokenAnnot) (x : TokenAnnot)
    (h : ∀ a ∈ l, annotEq a x = false) :
    ∀ k, findFirstEqFrom (l ++ [x]) x k = some (k + l.length) := by
  induction l with
  | nil => intro k; simp [findFirstEqFrom, annotEq_refl]
  | cons a rest ih =>
    intro k
    have ha := h a (List.mem_cons_self a rest)
    have htail := ih (fun b hb => h b (List.mem_cons_of_mem a hb)) (k + 1)
    rw [List.cons_append, findFirstEqFrom, ha]
    simp only [Bool.false_eq_true, if_false]
    rw [htail]
    simp only [List.length_cons]
    congr 1
    omega

theorem eraseIdx_concat (l : List TokenAnnot) (x : TokenAnnot) :
    (l ++ [x]).eraseIdx l.length = l := by
  induction l with
  | nil => rfl
  | cons a rest ih => simp [List.eraseIdx, ih]

theorem no_span_eq_of_overlaps_nil (t : AnnotatedTokens) (s e : Int) (hle : s ≤ e)
    (hov : getOverlaps t s e = []) :
    ∀ a ∈ t.annotations, ¬ (a.start = s ∧ a.end_ = e) := by
  intro a ha hcon
  have hmem := mem_getOverlaps_of_span_eq t s e hle a ha hcon.1 hcon.2
  rw [hov] at hmem
  cases hmem

theorem annotate_merge_strict_single (t : AnnotatedTokens) (s e : Int)
    (cv : CorrectValue) (m : Meta) (ex : TokenAnnot) (idx : Nat)
    (hgt : ¬ s > e)
    (hov : getOverlaps t s e = [ex]) (hs : ex.start = s) (he : ex.end_ = e)
    (hfind : findFirstEq t.annotations ex = some idx)
    (hov2 : getOverlaps ⟨t.tokens, t.annotations.eraseIdx idx⟩ s e = []) :
    annotate t s e cv m OnOverlap.merge_strict =
      Except.ok ⟨t.tokens, (t.annotations.eraseIdx idx) ++
        [⟨s, e, joinSp (pySlice t.tokens s e),
          uniqueList (ex.suggestions ++ normalizeSuggestions cv), dictMerge ex.meta m⟩]⟩ := by
  unfold annotate
  rw [if_neg hgt]
  dsimp only
  rw [hov]
  rw [if_neg (by simp : ¬ ([ex] : List TokenAnnot) = [])]
  unfold mergeStrict
  rw [if_neg (by simp : ¬ 1 < ([ex] : List TokenAnnot).length)]
  dsimp only
  rw [if_neg (by simp [hs, he] : ¬ (ex.start ≠ s ∨ ex.end_ ≠ e))]
  unfold removeAnnot
  rw [hfind]
  dsimp only
  unfold annotateOnError
  rw [if_neg hgt]
  dsimp only [normalizeSuggestions]
  rw [if_pos hov2]

theorem getOverlaps_def (t : AnnotatedTokens) (s e : Int) :
    getOverlaps t s e = t.annotations.filter (overlapsWith s e) := rfl

/-- C6: for every buffer with no annotation overlapping `(s, e)`, inserting
one annotation over `(s, e)` and then a second over the identical span under
`merge_strict` results in exactly one annotation over that span whose
suggestion list is the order-preserving deduplicated union of the two
suggestion lists, and as a set of suggestions the outcome is the same
regardless of which of the two was inserted first. -/
theorem c6_merge_strict_union (t : AnnotatedTokens) (s e : Int)
    (cv1 cv2 : CorrectValue) (m1 m2 : Meta) (t1 : AnnotatedTokens)
    (hov : getOverlaps t s e = [])
    (h1 : annotate t s e cv1 m1 OnOverlap.error = Except.ok t1) :
    annotate t1 s e cv2 m2 OnOverlap.merge_strict =
      Except.ok ⟨t.tokens, t.annotations ++
        [⟨s, e, joinSp (pySlice t.tokens s e),
          uniqueList (normalizeSuggestions cv1 ++ normalizeSuggestions cv2),
          dictMerge m1 m2⟩]⟩ ∧
    ((t.annotations ++
        ([⟨s, e, joinSp (pySlice t.tokens s e),
          uniqueList (normalizeSuggestions cv1 ++ normalizeSuggestions cv2),
          dictMerge m1 m2⟩] : List TokenAnnot)).filter
      (fun a : TokenAnnot => decide (a.start = s ∧ a.end_ = e))).length = 1 ∧
    (∀ x : String,
      x ∈ uniqueList (normalizeSuggestions cv1 ++ normalizeSuggestions cv2) ↔
        x ∈ normalizeSuggestions cv1 ∨ x ∈ normalizeSuggestions cv2) ∧
    (∀ x : String,
      x ∈ uniqueList (normalizeSuggestions cv1 ++ normalizeSuggestions cv2) ↔
        x ∈ uniqueList (normalizeSuggestions cv2 ++ normalizeSuggestions cv1)) := by
  obtain ⟨hgt, -, rfl⟩ := (annotate_error_ok_iff t s e cv1 m1 t1).mp h1
  have hle : s ≤ e := not_lt.mp (by rwa [gt_iff_lt] at hgt)
  have hnospan := no_span_eq_of_overlaps_nil t s e hle hov
  have hfil : t.annotations.filter (overlapsWith s e) = [] := by
    rw [getOverlaps_def] at hov; exact hov
  refine ⟨?_, ?_, ?_, ?_⟩
  · have hovlist : getOverlaps
        ⟨t.tokens, t.annotations ++
          [⟨s, e, joinSp (pySlice t.tokens s e), normalizeSuggestions cv1, m1⟩]⟩ s e =
        [⟨s, e, joinSp (pySlice t.tokens s e), normalizeSuggestions cv1, m1⟩] := by
      rw [getOverlaps_def]
      dsimp only
      rw [List.filter_append, hfil]
      simp [overlapsWith_of_span_eq s e
        ⟨s, e, joinSp (pySlice t.tokens s e), normalizeSuggestions cv1, m1⟩ hle rfl rfl]
    have hnoteq : ∀ a ∈ t.annotations,
        annotEq a ⟨s, e, joinSp (pySlice t.tokens s e), normalizeSuggestions cv1, m1⟩ = false := by
      intro a ha
      cases hcase : annotEq a ⟨s, e, joinSp (pySlice t.tokens s e), normalizeSuggestions cv1, m1⟩ with
      | false => rfl
      | true => exact absurd ⟨(annotEq_span hcase).1, (annotEq_span hcase).2⟩ (hnospan a ha)
    have hfind : findFirstEq
        (⟨t.tokens, t.annotations ++
          [⟨s, e, joinSp (pySlice t.tokens s e), normalizeSuggestions cv1, m1⟩]⟩ :
            AnnotatedTokens).annotations
        ⟨s, e, joinSp (pySlice t.tokens s e), normalizeSuggestions cv1, m1⟩ =
        some t.annotations.length := by
      show findFirstEqFrom _ _ 0 = _
      rw [findFirstEqFrom_concat_self t.annotations _ hnoteq 0, Nat.zero_add]
    have hov2 : getOverlaps
        ⟨(⟨t.tokens, t.annotations ++
            [⟨s, e, joinSp (pySlice t.tokens s e), normalizeSuggestions cv1, m1⟩]⟩ :
              AnnotatedTokens).tokens,
          (⟨t.tokens, t.annotations ++
            [⟨s, e, joinSp (pySlice t.tokens s e), normalizeSuggestions cv1, m1⟩]⟩ :
              AnnotatedTokens).annotations.eraseIdx t.annotations.length⟩ s e = [] := by
      rw [getOverlaps_def]
      dsimp only
      rw [eraseIdx_concat]
      exact hfil
    have hres := annotate_merge_strict_single
      ⟨t.tokens, t.annotations ++
        [⟨s, e, joinSp (pySlice t.tokens s e), normalizeSuggestions cv1, m1⟩]⟩
      s e cv2 m2
      ⟨s, e, joinSp (pySlice t.tokens s e), normalizeSuggestions cv1, m1⟩
      t.annotations.length hgt hovlist rfl rfl hfind hov2
    rw [show (⟨t.tokens, t.annotations ++
        [⟨s, e, joinSp (pySlice t.tokens s e), normalizeSuggestions cv1, m1⟩]⟩ :
          AnnotatedTokens).annotations.eraseIdx t.annotations.length =
        t.annotations from eraseIdx_concat t.annotations _] at hres
    exact hres
  · rw [List.filter_append]
    have hfilnil : t.annotations.filter
        (fun a : TokenAnnot => decide (a.start = s ∧ a.end_ = e)) = [] := by
      rw [List.filter_eq_nil_iff]
      intro a ha
      simp only [decide_eq_true_eq]
      exact hnospan a ha
    rw [hfilnil]
    simp
  · intro x
    rw [mem_uniqueList, List.mem_append]
  · intro x
    rw [mem_uniqueList, mem_uniqueList, List.mem_append, List.mem_append]
    exact or_comm

/-- C6 witness: the theorem applied at a concrete two-token buffer, with
colliding metadata keys and a duplicated suggestion across the two lists. -/
theorem c6_witness :
    getOverlaps ⟨["a", "b"], []⟩ 0 1 = [] ∧
    annotate ⟨["a", "b"], []⟩ 0 1 (CorrectValue.str "x") [("k", "1")] OnOverlap.error =
      Except.ok ⟨["a", "b"], [⟨0, 1, "a", ["x"], [("k", "1")]⟩]⟩ ∧
    annotate ⟨["a", "b"], [⟨0, 1, "a", ["x"], [("k", "1")]⟩]⟩ 0 1
        (CorrectValue.list ["y", "x"]) [("k", "2")] OnOverlap.merge_strict =
      Except.ok ⟨["a", "b"], [⟨0, 1, "a", ["x", "y"], [("k", "2")]⟩]⟩ :=
  ⟨by decide, by decide, by
    have h := (c6_merge_strict_union ⟨["a", "b"], []⟩ 0 1 (CorrectValue.str "x")
      (CorrectValue.list ["y", "x"]) [("k", "1")] [("k", "2")]
      ⟨["a", "b"], [⟨0, 1, "a", ["x"], [("k", "1")]⟩]⟩ (by decide) (by decide)).1
    exact h⟩

/-
Claim C5: combine's mismatch guard and overlap policy.
-/

/-- C5 counterexample: two buffers whose original token *lists* differ
(`["a b"]` versus `["a", "b"]`) but whose space-joined texts coincide are
combined without any error — `combine` compares `get_original_text()`, not
the token sequences, so it does not fail "whenever the two buffers' original
token sequences are not identical". -/
theorem c5_counterexample :
    (⟨["a b"], []⟩ : AnnotatedTokens).tokens ≠ (⟨["a", "b"], []⟩ : AnnotatedTokens).tokens ∧
    combine ⟨["a b"], []⟩ ⟨["a", "b"], []⟩ true = Except.ok ⟨["a b"], []⟩ := by
  decide

theorem annotate_save_old_extends (acc : AnnotatedTokens) (s e : Int)
    (cv : CorrectValue) (m : Meta) (hle : s ≤ e) :
    ∃ ext, annotate acc s e cv m OnOverlap.save_old =
      Except.ok ⟨acc.tokens, acc.annotations ++ ext⟩ := by
  unfold annotate
  rw [if_neg (not_lt.mpr hle : ¬ s > e)]
  dsimp only
  by_cases hov : getOverlaps acc s e = []
  · exact ⟨_, by rw [if_pos hov]⟩
  · refine ⟨[], ?_⟩
    rw [if_neg hov]
    simp

theorem combineGo_save_old (anns : List TokenAnnot) :
    ∀ acc : AnnotatedTokens, (∀ a ∈ anns, a.start ≤ a.end_) →
      ∃ t' ext, combineGo OnOverlap.save_old anns acc = Except.ok t' ∧
        t'.tokens = acc.tokens ∧ t'.annotations = acc.annotations ++ ext := by
  induction anns with
  | nil =>
    intro acc _
    exact ⟨acc, [], rfl, rfl, by simp⟩
  | cons a rest ih =>
    intro acc hwf
    obtain ⟨ext1, hstep⟩ := annotate_save_old_extends acc a.start a.end_
      (.list a.suggestions) a.meta (hwf a (List.mem_cons_self a rest))
    obtain ⟨t', ext2, hgo, htok, hanns⟩ :=
      ih ⟨acc.tokens, acc.annotations ++ ext1⟩ (fun b hb => hwf b (List.mem_cons_of_mem a hb))
    refine ⟨t', ext1 ++ ext2, ?_, htok, ?_⟩
    · rw [combineGo, hstep]
      exact hgo
    · rw [hanns]
      simp

/-- C5 amended: `combine(other, discard_overlap)` fails with a `ValueError`
(the spec's `MismatchError`), leaving `self` untouched, exactly when the two
buffers' space-joined original *texts* differ — token lists that differ but
join to the same text pass the guard.  When the joined texts agree, every
annotation of `other` is re-inserted through `annotate` under `save_old`
when `discard_overlap` is true and under `error` otherwise; in the
`save_old` mode (with well-formed spans in `other`) the call succeeds and
`self`'s original annotations survive unchanged, in order, at the front of
the collection. -/
theorem c5_combine_guard (t other : AnnotatedTokens) (d : Bool) :
    (joinSp t.tokens ≠ joinSp other.tokens →
      combine t other d = Except.error (PyErr.value, t)) ∧
    (joinSp t.tokens = joinSp other.tokens →
      combine t other d =
        combineGo (if d then OnOverlap.save_old else OnOverlap.error) other.annotations t) ∧
    (joinSp t.tokens = joinSp other.tokens →
      (∀ a ∈ other.annotations, a.start ≤ a.end_) →
      ∃ t', combine t other true = Except.ok t' ∧ t'.tokens = t.tokens ∧
        t'.annotations.take t.annotations.length = t.annotations) := by
  refine ⟨?_, ?_, ?_⟩
  · intro h
    unfold combine
    rw [if_pos h]
  · intro h
    unfold combine
    rw [if_neg (not_not_intro h)]
  · intro h hwf
    obtain ⟨t', ext, hgo, htok, hanns⟩ := combineGo_save_old other.annotations t hwf
    refine ⟨t', ?_, htok, ?_⟩
    · unfold combine
      rw [if_neg (not_not_intro h)]
      exact hgo
    · rw [hanns, List.take_left]

/-- C5 witness: a matching pair of buffers where the overlapping annotation
of `other` is silently discarded (`self`'s annotation wins) and the
non-overlapping one is added, plus a mismatching pair that raises. -/
theorem c5_witness :
    (joinSp (["a", "b"] : List String) = joinSp (["a", "b"] : List String)) ∧
    (∃ t', combine ⟨["a", "b"], [⟨0, 1, "a", ["A"], []⟩]⟩
        ⟨["a", "b"], [⟨0, 1, "a", ["B"], []⟩, ⟨1, 2, "b", ["C"], []⟩]⟩ true =
          Except.ok t' ∧
      t'.tokens = (⟨["a", "b"], [⟨0, 1, "a", ["A"], []⟩]⟩ : AnnotatedTokens).tokens ∧
      t'.annotations.take (⟨["a", "b"], [⟨0, 1, "a", ["A"], []⟩]⟩ :
        AnnotatedTokens).annotations.length =
        (⟨["a", "b"], [⟨0, 1, "a", ["A"], []⟩]⟩ : AnnotatedTokens).annotations) ∧
    combine ⟨["x"], []⟩ ⟨["y"], []⟩ true = Except.error (PyErr.value, ⟨["x"], []⟩) :=
  ⟨rfl,
    (c5_combine_guard ⟨["a", "b"], [⟨0, 1, "a", ["A"], []⟩]⟩
      ⟨["a", "b"], [⟨0, 1, "a", ["B"], []⟩, ⟨1, 2, "b", ["C"], []⟩]⟩ true).2.2
      (by decide) (by decide),
    (c5_combine_guard ⟨["x"], []⟩ ⟨["y"], []⟩ true).1 (by decide)⟩

/-
Claim C7: safe iteration.
-/

theorem findFirstEq_cons_self (a : TokenAnnot) (rest : List TokenAnnot) :
    findFirstEq (a :: rest) a = some 0 := by
  simp [findFirstEq, findFirstEqFrom, annotEq_refl]

theorem annotFields_shift (p : Prop) [Decidable p] (x : TokenAnnot) (d : Int) :
    annotFields (if p then shiftAnnot x d else x) = annotFields x := by
  split <;> rfl

theorem iterBody_step (c : Nat → Bool) (k : Nat) (t : AnnotatedTokens)
    (a : TokenAnnot) (rest : List TokenAnnot) (h : t.annotations = a :: rest) :
    (iterBody c k t a).annotations.length = rest.length ∧
    (iterBody c k t a).annotations.map annotFields = rest.map annotFields := by
  have hfind : findFirstEq t.annotations a = some 0 := by rw [h]; exact findFirstEq_cons_self a rest
  have herase : t.annotations.eraseIdx 0 = rest := by rw [h]; rfl
  unfold iterBody
  by_cases hc : c k
  · rw [if_pos hc]
    by_cases hs : a.suggestions = []
    · simp only [applyCorrection, hfind, herase, hs, ne_eq, not_true_eq_false, if_false,
        reduceCtorEq, ite_true]
      refine ⟨by simp, ?_⟩
      rw [List.map_map]
      exact List.map_congr_left (fun x _ => annotFields_shift _ x _)
    · have hg := List.getElem?_eq_getElem (List.length_pos.mpr hs)
      simp only [applyCorrection, hfind, herase, hs, ne_eq, not_false_eq_true, if_true, hg]
      refine ⟨by simp, ?_⟩
      rw [List.map_map]
      exact List.map_congr_left (fun x _ => annotFields_shift _ x _)
  · rw [if_neg hc]
    simp [removeAnnot, hfind, herase]

theorem iterRun_consumes (n : Nat) : ∀ (t : AnnotatedTokens) (c : Nat → Bool) (k0 : Nat),
    t.annotations.length = n →
    ∃ vs tF, iterRun (iterBody c) (n + 1) t 0 (n : Int) k0 = some (vs, tF) ∧
      vs.length = n ∧ tF.annotations = [] ∧
      vs.map annotFields = t.annotations.map annotFields := by
  induction n with
  | zero =>
    intro t c k0 h
    refine ⟨[], t, ?_, rfl, List.length_eq_zero.mp h, by rw [List.length_eq_zero.mp h]⟩
    simp [iterRun]
  | succ n ih =>
    intro t c k0 h
    cases h' : t.annotations with
    | nil => rw [h'] at h; cases h
    | cons a rest =>
      have hrest : rest.length = n := by
        rw [h'] at h
        simpa using h
      have hget : pyGet t.annotations 0 = some a := by
        simp [pyGet, h']
      obtain ⟨hlen, hfields⟩ := iterBody_step c k0 t a rest h'
      obtain ⟨vs', tF, hrun, hvslen, htF, hvsf⟩ :=
        ih (iterBody c k0 t a) c (k0 + 1) (hlen.trans hrest)
      refine ⟨a :: vs', tF, ?_, by simpa using hvslen, htF, ?_⟩
      · rw [iterRun]
        rw [if_pos (by exact_mod_cast Nat.succ_pos n : (0 : Int) < ((n + 1 : Nat) : Int))]
        rw [hget]
        dsimp only
        have hidx : (0 : Int) + (((iterBody c k0 t a).annotations.length : Int) -
            ((n + 1 : Nat) : Int)) + 1 = 0 := by
          rw [hlen.trans hrest]
          push_cast
          ring
        rw [hidx]
        have hcast : ((iterBody c k0 t a).annotations.length : Int) = (n : Int) := by
          exact_mod_cast hlen.trans hrest
        rw [hcast, hrun]
      · rw [List.map_cons, List.map_cons, hvsf, hfields]

/-- C7: iterating the annotations with `iter_annotations` while the loop
body removes or corrects (at level 0) every visited annotation terminates
after exactly as many visits as there were annotations at the start, ends
with an empty collection, and visits each annotation exactly once — the
visited sequence reproduces the initial collection's source texts,
suggestion lists and metadata in order (correction may remap coordinates of
later annotations, which is all it may change). -/
theorem c7_iter_annotations_safe (t : AnnotatedTokens) (c : Nat → Bool) :
    ∃ vs tF, iterRun (iterBody c) (t.annotations.length + 1) t 0
        (t.annotations.length : Int) 0 = some (vs, tF) ∧
      vs.length = t.annotations.length ∧ tF.annotations = [] ∧
      vs.map annotFields = t.annotations.map annotFields :=
  iterRun_consumes t.annotations.length t c 0 rfl

/-
Characterization of the b2j mapping built by chain_b.
-/

theorem setdefaultAppend_lookup (acc : List (String × List Nat)) (y : String) (k : Nat)
    (x : String) :
    assocLookup (setdefaultAppend acc y k) x =
      if y = x then
        match assocLookup acc x with
        | some ps => some (ps ++ [k])
        | Option.none => some [k]
      else assocLookup acc x := by
  induction acc with
  | nil =>
    by_cases h : y = x <;> simp [setdefaultAppend, assocLookup, h]
  | cons kv rest ih =>
    obtain ⟨z, l⟩ := kv
    by_cases hzy : z = y
    · subst hzy
      by_cases hzx : z = x
      · simp [setdefaultAppend, assocLookup, hzx]
      · simp [setdefaultAppend, assocLookup, hzx]
    · by_cases hzx : z = x
      · have hyx : ¬ y = x := fun h => hzy (hzx.trans h.symm)
        have hxy : ¬ x = y := fun h => hzy (hzx.trans h)
        simp [setdefaultAppend, assocLookup, hzy, hzx, hyx, hxy]
      · simp [setdefaultAppend, assocLookup, hzy, hzx, ih]

theorem chainAux_lookup (l : List String) :
    ∀ (k : Nat) (acc : List (String × List Nat)) (x : String),
      assocLookup (chainAux k l acc) x =
        match assocLookup acc x with
        | some ps => some (ps ++ positionsFrom x k l)
        | Option.none =>
          if positionsFrom x k l = [] then Option.none else some (positionsFrom x k l) := by
  induction l with
  | nil =>
    intro k acc x
    cases h : assocLookup acc x <;> simp [chainAux, positionsFrom, h]
  | cons y ys ih =>
    intro k acc x
    rw [chainAux, ih]
    rw [setdefaultAppend_lookup]
    by_cases hyx : y = x
    · rw [if_pos hyx]
      cases h : assocLookup acc x with
      | some ps => simp [positionsFrom, hyx, h]
      | none => simp [positionsFrom, hyx, h]
    · rw [if_neg hyx]
      cases h : assocLookup acc x with
      | some ps => simp [positionsFrom, hyx, h]
      | none => simp [positionsFrom, hyx, h]

theorem positionsFrom_mem (x : String) :
    ∀ (l : List String) (k j : Nat), j ∈ positionsFrom x k l →
      k ≤ j ∧ j - k < l.length ∧ l.getD (j - k) "" = x := by
  intro l
  induction l with
  | nil => intro k j h; cases h
  | cons y ys ih =>
    intro k j h
    by_cases hy : y = x
    · rw [positionsFrom, if_pos hy] at h
      rcases List.mem_cons.mp h with rfl | h
      · simp [hy]
      · obtain ⟨h1, h2, h3⟩ := ih (k + 1) j h
        refine ⟨by omega, by simp; omega, ?_⟩
        have : j - k = (j - (k + 1)) + 1 := by omega
        rw [this]
        simpa using h3
    · rw [positionsFrom, if_neg hy] at h
      obtain ⟨h1, h2, h3⟩ := ih (k + 1) j h
      refine ⟨by omega, by simp; omega, ?_⟩
      have : j - k = (j - (k + 1)) + 1 := by omega
      rw [this]
      simpa using h3

theorem positionsFrom_sorted (x : String) :
    ∀ (l : List String) (k : Nat), List.Pairwise (· < ·) (positionsFrom x k l) := by
  intro l
  induction l with
  | nil => intro k; simp [positionsFrom]
  | cons y ys ih =>
    intro k
    by_cases hy : y = x
    · rw [positionsFrom, if_pos hy]
      refine List.Pairwise.cons ?_ (ih (k + 1))
      intro j hj
      have := (positionsFrom_mem x ys (k + 1) j hj).1
      omega
    · rw [positionsFrom, if_neg hy]
      exact ih (k + 1)

theorem positionsFrom_complete (x : String) :
    ∀ (l : List String) (k m : Nat), m < l.length → l.getD m "" = x →
      (k + m) ∈ positionsFrom x k l := by
  intro l
  induction l with
  | nil => intro k m h; simp at h
  | cons y ys ih =>
    intro k m hm hget
    cases m with
    | zero =>
      have : y = x := by simpa using hget
      simp [positionsFrom, this]
    | succ m' =>
      have hmem := ih (k + 1) m' (by simpa using hm) (by simpa using hget)
      have : k + (m' + 1) = (k + 1) + m' := by omega
      rw [this]
      by_cases hy : y = x
      · rw [positionsFrom, if_pos hy]
        exact List.mem_cons_of_mem _ hmem
      · rw [positionsFrom, if_neg hy]
        exact hmem

theorem setdefaultAppend_keys (y : String) (k : Nat) :
    ∀ acc : List (String × List Nat),
      List.map Prod.fst (setdefaultAppend acc y k) =
        if y ∈ List.map Prod.fst acc then List.map Prod.fst acc
        else List.map Prod.fst acc ++ [y] := by
  intro acc
  induction acc with
  | nil => simp [setdefaultAppend]
  | cons kv rest ih =>
    obtain ⟨z, l⟩ := kv
    by_cases hzy : z = y
    · subst hzy
      simp [setdefaultAppend]
    · have : ¬ y = z := fun h => hzy h.symm
      simp [setdefaultAppend, hzy, this, ih]
      by_cases hmem : y ∈ List.map Prod.fst rest <;> simp [hmem, this]

theorem chainAux_keys_nodup :
    ∀ (l : List String) (k : Nat) (acc : List (String × List Nat)),
      (List.map Prod.fst acc).Nodup → (List.map Prod.fst (chainAux k l acc)).Nodup := by
  intro l
  induction l with
  | nil => intro k acc h; exact h
  | cons y ys ih =>
    intro k acc h
    rw [chainAux]
    refine ih (k + 1) _ ?_
    rw [setdefaultAppend_keys]
    by_cases hmem : y ∈ List.map Prod.fst acc
    · rwa [if_pos hmem]
    · rw [if_neg hmem]
      simp [List.nodup_append, h, hmem]

theorem assocLookup_mem_keys {β : Type} :
    ∀ (l : List (String × β)) (x : String) (v : β),
      assocLookup l x = some v → x ∈ List.map Prod.fst l := by
  intro l
  induction l with
  | nil => intro x v h; cases h
  | cons kv rest ih =>
    intro x v h
    obtain ⟨z, w⟩ := kv
    by_cases hzx : z = x
    · simp [hzx]
    · rw [assocLookup, if_neg hzx] at h
      simp [ih x v h]

theorem assocLookup_filter (p : String × List Nat → Bool) :
    ∀ (l : List (String × List Nat)), (List.map Prod.fst l).Nodup →
      ∀ (x : String) (v : List Nat),
        assocLookup (l.filter p) x = some v → assocLookup l x = some v := by
  intro l
  induction l with
  | nil => intro _ x v h; cases h
  | cons kv rest ih =>
    intro hnd x v h
    obtain ⟨z, w⟩ := kv
    have hnd' : (List.map Prod.fst rest).Nodup := by
      simpa using hnd.of_cons
    have hz : z ∉ List.map Prod.fst rest := by
      intro hmem
      exact (List.nodup_cons.mp (by simpa using hnd)).1 hmem
    by_cases hp : p (z, w)
    · rw [List.filter_cons_of_pos hp] at h
      by_cases hzx : z = x
      · rw [assocLookup, if_pos hzx] at h ⊢
        exact h
      · rw [assocLookup, if_neg hzx] at h ⊢
        exact ih hnd' x v h
    · rw [List.filter_cons_of_neg hp] at h
      have hrest := ih hnd' x v h
      by_cases hzx : z = x
      · exact absurd (hzx ▸ assocLookup_mem_keys rest x v hrest) hz
      · rw [assocLookup, if_neg hzx]
        exact hrest

theorem chainB_lookup_some (b : List String) (x : String) (l : List Nat)
    (h : assocLookup (chainB b) x = some l) : l = positionsFrom x 0 b := by
  have hfull : assocLookup (chainBFull b) x = some l := by
    rw [chainB] at h
    by_cases hlen : 200 ≤ b.length
    · rw [if_pos hlen] at h
      exact assocLookup_filter _ (chainBFull b)
        (chainAux_keys_nodup b 0 [] (by simp)) x l h
    · rwa [if_neg hlen] at h
  rw [chainBFull, chainAux_lookup] at hfull
  simp only [assocLookup] at hfull
  by_cases hpos : positionsFrom x 0 b = []
  · rw [if_pos hpos] at hfull
    cases hfull
  · rw [if_neg hpos] at hfull
    exact (Option.some.injEq _ _ ▸ hfull).symm

theorem chainB_occ (b : List String) (x : String) (j : Nat)
    (h : j ∈ b2jGet (chainB b) x) : b.getD j "" = x := by
  rw [b2jGet] at h
  cases hl : assocLookup (chainB b) x with
  | none => rw [hl] at h; cases h
  | some l =>
    rw [hl] at h
    simp only [Option.getD_some] at h
    rw [chainB_lookup_some b x l hl] at h
    have := (positionsFrom_mem x b 0 j h).2.2
    simpa using this

theorem chainB_sorted (b : List String) (x : String) :
    List.Pairwise (· < ·) (b2jGet (chainB b) x) := by
  rw [b2jGet]
  cases hl : assocLookup (chainB b) x with
  | none => simp
  | some l =>
    rw [chainB_lookup_some b x l hl]
    simp [positionsFrom_sorted]

theorem chainB_self_mem (b : List String) (i : Nat) (hi : i < b.length)
    (h : b2jGet (chainB b) (b.getD i "") ≠ []) :
    i ∈ b2jGet (chainB b) (b.getD i "") := by
  rw [b2jGet] at h ⊢
  cases hl : assocLookup (chainB b) (b.getD i "") with
  | none => rw [hl] at h; simp at h
  | some l =>
    simp only [Option.getD_some]
    rw [chainB_lookup_some b _ l hl]
    have := positionsFrom_complete (b.getD i "") b 0 i hi rfl
    simpa using this

/-
The j2len dynamic program of find_longest_match on identical sequences.
-/

theorem colRun_le (b2j : List (String × List Nat)) (b : List String) :
    ∀ j, colRun b2j b j ≤ j + 1 := by
  intro j
  induction j with
  | zero => by_cases h : rareAt b2j b 0 <;> simp [colRun, h]
  | succ j ih =>
    by_cases h : rareAt b2j b (j + 1) <;> simp [colRun, h]
    omega

theorem colRun_pos_of_rare {b2j : List (String × List Nat)} {b : List String} {j : Nat}
    (h : rareAt b2j b j) : 1 ≤ colRun b2j b j := by
  cases j <;> simp [colRun, h]

theorem colRun_eq_zero_of_not_rare {b2j : List (String × List Nat)} {b : List String} {j : Nat}
    (h : ¬ rareAt b2j b j) : colRun b2j b j = 0 := by
  cases j <;> simp [colRun, h]

theorem colRun_succ_of_rare {b2j : List (String × List Nat)} {b : List String} {j : Nat}
    (h : rareAt b2j b (j + 1)) : colRun b2j b (j + 1) = colRun b2j b j + 1 := by
  simp [colRun, h]

theorem colRun_zero_of_rare {b2j : List (String × List Nat)} {b : List String}
    (h : rareAt b2j b 0) : colRun b2j b 0 = 1 := by
  simp [colRun, h]

theorem natLookup_natSet (key val : Nat) :
    ∀ (m : List (Nat × Nat)) (j : Nat),
      natLookup (natSet m key val) j = if key = j then some val else natLookup m j := by
  intro m
  induction m with
  | nil =>
    intro j
    by_cases h : key = j <;> simp [natSet, natLookup, h]
  | cons kv rest ih =>
    intro j
    obtain ⟨z, w⟩ := kv
    by_cases hzk : z = key
    · subst hzk
      by_cases hzj : z = j <;> simp [natSet, natLookup, hzj]
    · by_cases hzj : z = j
      · subst hzj
        have : ¬ key = z := fun h => hzk h.symm
        simp [natSet, natLookup, hzk, this]
      · simp [natSet, natLookup, hzk, hzj, ih]

theorem rareAt_of_mem_row {a : List String} {b2j : List (String × List Nat)}
    (H1 : ∀ x j, j ∈ b2jGet b2j x → a.getD j "" = x)
    {i j : Nat} (hj : j ∈ b2jGet b2j (a.getD i "")) : rareAt b2j a j := by
  have := H1 _ j hj
  rw [rareAt, this]
  exact hj

theorem innerK_bound {a : List String} {b2j : List (String × List Nat)}
    (H1 : ∀ x j, j ∈ b2jGet b2j x → a.getD j "" = x)
    {i : Nat} (hrarei : rareAt b2j a i)
    {j2len : List (Nat × Nat)}
    (hprev : ∀ j k, natLookup j2len j = some k →
      1 ≤ k ∧ k ≤ colRun b2j a j ∧ ∃ i', i = i' + 1 ∧ k ≤ colRun b2j a i')
    {j : Nat} (hj : j ∈ b2jGet b2j (a.getD i "")) :
    1 ≤ j2lenGetPred j2len j + 1 ∧ j2lenGetPred j2len j + 1 ≤ colRun b2j a j ∧
      j2lenGetPred j2len j + 1 ≤ colRun b2j a i := by
  have hrarej : rareAt b2j a j := rareAt_of_mem_row H1 hj
  refine ⟨by omega, ?_, ?_⟩
  · cases j with
    | zero =>
      simp only [j2lenGetPred]
      have := colRun_pos_of_rare hrarej
      omega
    | succ j' =>
      rw [colRun_succ_of_rare hrarej]
      simp only [j2lenGetPred]
      cases hfind : natLookup j2len j' with
      | none => simp
      | some k' =>
        have := (hprev j' k' hfind).2.1
        simp
        omega
  · cases i with
    | zero =>
      cases j with
      | zero =>
        simp only [j2lenGetPred]
        have := colRun_pos_of_rare hrarei
        omega
      | succ j' =>
        simp only [j2lenGetPred]
        cases hfind : natLookup j2len j' with
        | none =>
          have := colRun_pos_of_rare hrarei
          simpa using this
        | some k' =>
          obtain ⟨-, -, i', hii, -⟩ := hprev j' k' hfind
          cases hii
    | succ i' =>
      rw [colRun_succ_of_rare hrarei]
      cases j with
      | zero => simp [j2lenGetPred]
      | succ j' =>
        simp only [j2lenGetPred]
        cases hfind : natLookup j2len j' with
        | none => simp
        | some k' =>
          obtain ⟨-, -, i'', hii, hk⟩ := hprev j' k' hfind
          cases hii
          simp
          omega

theorem innerK_diag {a : List String} {b2j : List (String × List Nat)}
    {i : Nat} (hrarei : rareAt b2j a i)
    {j2len : List (Nat × Nat)}
    (hprev : ∀ j k, natLookup j2len j = some k →
      1 ≤ k ∧ k ≤ colRun b2j a j ∧ ∃ i', i = i' + 1 ∧ k ≤ colRun b2j a i')
    (hdiag : ∀ i', i = i' + 1 → rareAt b2j a i' → natLookup j2len i' = some (colRun b2j a i')) :
    j2lenGetPred j2len i + 1 = colRun b2j a i := by
  cases i with
  | zero =>
    simp only [j2lenGetPred]
    rw [colRun_zero_of_rare hrarei]
  | succ i' =>
    rw [colRun_succ_of_rare hrarei]
    simp only [j2lenGetPred]
    by_cases hr : rareAt b2j a i'
    · rw [hdiag i' rfl hr]
      simp
    · cases hfind : natLookup j2len i' with
      | none => simp [colRun_eq_zero_of_not_rare hr]
      | some k' =>
        obtain ⟨h1, h2, -⟩ := hprev i' k' hfind
        rw [colRun_eq_zero_of_not_rare hr] at h2
        omega

theorem innerLoop_postdiag {a : List String} {b2j : List (String × List Nat)} {n i : Nat}
    (H1 : ∀ x j, j ∈ b2jGet b2j x → a.getD j "" = x)
    {j2len : List (Nat × Nat)}
    (hprev : ∀ j k, natLookup j2len j = some k →
      1 ≤ k ∧ k ≤ colRun b2j a j ∧ ∃ i', i = i' + 1 ∧ k ≤ colRun b2j a i')
    (hrarei : rareAt b2j a i) :
    ∀ (l : List Nat) (m : List (Nat × Nat)) (d s : Nat),
      (∀ j ∈ l, i < j) → List.Pairwise (· < ·) l →
      (∀ j ∈ l, j ∈ b2jGet b2j (a.getD i "")) →
      colRun b2j a i ≤ s → d + s ≤ i + 1 →
      (∀ j k, natLookup m j = some k → 1 ≤ k ∧ k ≤ colRun b2j a j ∧ k ≤ colRun b2j a i) →
      natLookup m i = some (colRun b2j a i) →
      ∃ m', innerLoop i 0 n j2len l m (d, d, s) = (m', (d, d, s)) ∧
        (∀ j k, natLookup m' j = some k → 1 ≤ k ∧ k ≤ colRun b2j a j ∧ k ≤ colRun b2j a i) ∧
        natLookup m' i = some (colRun b2j a i) := by
  intro l
  induction l with
  | nil =>
    intro m d s _ _ _ _ _ hm hdiagm
    exact ⟨m, rfl, hm, hdiagm⟩
  | cons j rest ih =>
    intro m d s hgt hsort hjs hcol hds hm hdiagm
    have hij : i < j := hgt j (List.mem_cons_self j rest)
    rw [innerLoop]
    rw [if_neg (by omega : ¬ j < 0)]
    by_cases hbreak : n ≤ j
    · rw [if_pos hbreak]
      exact ⟨m, rfl, hm, hdiagm⟩
    · rw [if_neg hbreak]
      dsimp only
      have hjmem := hjs j (List.mem_cons_self j rest)
      obtain ⟨hk1, hkj, hki⟩ := innerK_bound H1 hrarei hprev hjmem
      have hnoup : ¬ s < j2lenGetPred j2len j + 1 := by omega
      rw [if_neg hnoup]
      refine ih (natSet m j (j2lenGetPred j2len j + 1)) d s
        (fun j' hj' => hgt j' (List.mem_cons_of_mem j hj'))
        hsort.of_cons
        (fun j' hj' => hjs j' (List.mem_cons_of_mem j hj'))
        hcol hds ?_ ?_
      · intro j' k' hfind
        rw [natLookup_natSet] at hfind
        by_cases hjj : j = j'
        · rw [if_pos hjj] at hfind
          cases hfind
          exact ⟨hk1, hjj ▸ hkj, hki⟩
        · rw [if_neg hjj] at hfind
          exact hm j' k' hfind
      · rw [natLookup_natSet, if_neg (by omega : ¬ j = i)]
        exact hdiagm

theorem innerLoop_prediag {a : List String} {b2j : List (String × List Nat)} {n i : Nat}
    (H1 : ∀ x j, j ∈ b2jGet b2j x → a.getD j "" = x)
    {j2len : List (Nat × Nat)}
    (hprev : ∀ j k, natLookup j2len j = some k →
      1 ≤ k ∧ k ≤ colRun b2j a j ∧ ∃ i', i = i' + 1 ∧ k ≤ colRun b2j a i')
    (hdiag : ∀ i', i = i' + 1 → rareAt b2j a i' → natLookup j2len i' = some (colRun b2j a i'))
    (hrarei : rareAt b2j a i) (hin : i < n) :
    ∀ (l : List Nat) (m : List (Nat × Nat)) (d s : Nat),
      i ∈ l → List.Pairwise (· < ·) l →
      (∀ j ∈ l, j ∈ b2jGet b2j (a.getD i "")) →
      d + s ≤ i → (∀ j, j < i → colRun b2j a j ≤ s) →
      (∀ j k, natLookup m j = some k → 1 ≤ k ∧ k ≤ colRun b2j a j ∧ k ≤ colRun b2j a i) →
      ∃ m' d' s', innerLoop i 0 n j2len l m (d, d, s) = (m', (d', d', s')) ∧
        colRun b2j a i ≤ s' ∧ d' + s' ≤ i + 1 ∧ s ≤ s' ∧
        (∀ j k, natLookup m' j = some k → 1 ≤ k ∧ k ≤ colRun b2j a j ∧ k ≤ colRun b2j a i) ∧
        natLookup m' i = some (colRun b2j a i) := by
  intro l
  induction l with
  | nil => intro m d s hmem; cases hmem
  | cons j rest ih =>
    intro m d s hmem hsort hjs hds hsmall hm
    rw [innerLoop]
    rw [if_neg (by omega : ¬ j < 0)]
    rcases Nat.lt_trichotomy j i with hji | hji | hji
    · -- pre-diagonal element
      have hibreak : ¬ n ≤ j := by omega
      rw [if_neg hibreak]
      dsimp only
      have hjmem := hjs j (List.mem_cons_self j rest)
      obtain ⟨hk1, hkj, hki⟩ := innerK_bound H1 hrarei hprev hjmem
      have hnoup : ¬ s < j2lenGetPred j2len j + 1 := by
        have := hsmall j hji
        omega
      rw [if_neg hnoup]
      have hirest : i ∈ rest := by
        rcases List.mem_cons.mp hmem with h | h
        · omega
        · exact h
      refine ih (natSet m j (j2lenGetPred j2len j + 1)) d s hirest
        hsort.of_cons
        (fun j' hj' => hjs j' (List.mem_cons_of_mem j hj'))
        hds hsmall ?_
      intro j' k' hfind
      rw [natLookup_natSet] at hfind
      by_cases hjj : j = j'
      · rw [if_pos hjj] at hfind
        cases hfind
        exact ⟨hk1, hjj ▸ hkj, hki⟩
      · rw [if_neg hjj] at hfind
        exact hm j' k' hfind
    · -- the diagonal element
      subst hji
      rw [if_neg (by omega : ¬ n ≤ j)]
      dsimp only
      have hkeq := innerK_diag hrarei hprev hdiag
      have hrest_gt : ∀ j' ∈ rest, j < j' := by
        intro j' hj'
        exact List.rel_of_pairwise_cons hsort hj'
      have hm' : ∀ j' k', natLookup (natSet m j (j2lenGetPred j2len j + 1)) j' = some k' →
          1 ≤ k' ∧ k' ≤ colRun b2j a j' ∧ k' ≤ colRun b2j a j := by
        intro j' k' hfind
        rw [natLookup_natSet] at hfind
        by_cases hjj : j = j'
        · rw [if_pos hjj] at hfind
          cases hfind
          rw [hkeq]
          have := colRun_pos_of_rare hrarei
          exact ⟨this, hjj ▸ le_rfl, le_rfl⟩
        · rw [if_neg hjj] at hfind
          exact hm j' k' hfind
      have hdiagm' : natLookup (natSet m j (j2lenGetPred j2len j + 1)) j =
          some (colRun b2j a j) := by
        rw [natLookup_natSet, if_pos rfl, hkeq]
      by_cases hup : s < j2lenGetPred j2len j + 1
      · rw [if_pos hup]
        have hkle : j2lenGetPred j2len j + 1 ≤ j + 1 := by
          rw [hkeq]
          exact colRun_le b2j a j
        have hdd : j + 1 - (j2lenGetPred j2len j + 1) + (j2lenGetPred j2len j + 1) = j + 1 := by
          omega
        obtain ⟨m', hrun, hmf, hdf⟩ := innerLoop_postdiag H1 hprev hrarei rest
          (natSet m j (j2lenGetPred j2len j + 1))
          (j + 1 - (j2lenGetPred j2len j + 1)) (j2lenGetPred j2len j + 1)
          hrest_gt hsort.of_cons
          (fun j' hj' => hjs j' (List.mem_cons_of_mem j hj'))
          (by rw [hkeq]) (by omega) hm' hdiagm'
        refine ⟨m', _, _, hrun, ?_, ?_, ?_, hmf, hdf⟩
        · rw [hkeq]
        · omega
        · omega
      · rw [if_neg hup]
        obtain ⟨m', hrun, hmf, hdf⟩ := innerLoop_postdiag H1 hprev hrarei rest
          (natSet m j (j2lenGetPred j2len j + 1)) d s
          hrest_gt hsort.of_cons
          (fun j' hj' => hjs j' (List.mem_cons_of_mem j hj'))
          (by rw [← hkeq]; omega) (by omega) hm' hdiagm'
        exact ⟨m', d, s, hrun, by rw [← hkeq]; omega, by omega, le_rfl, hmf, hdf⟩
    · -- an element beyond the diagonal cannot be reached before the diagonal
      exfalso
      rcases List.mem_cons.mp hmem with h | h
      · omega
      · have := List.rel_of_pairwise_cons hsort h
        omega

theorem flmFold_diag {a : List String} {b2j : List (String × List Nat)} {n : Nat}
    (H1 : ∀ x j, j ∈ b2jGet b2j x → a.getD j "" = x)
    (H2 : ∀ i, i < n → b2jGet b2j (a.getD i "") ≠ [] → i ∈ b2jGet b2j (a.getD i ""))
    (H3 : ∀ x, List.Pairwise (· < ·) (b2jGet b2j x)) :
    ∀ (cnt t : Nat) (j2len : List (Nat × Nat)) (d s : Nat),
      t + cnt = n →
      d + s ≤ t → (∀ j, j < t → colRun b2j a j ≤ s) →
      (∀ j k, natLookup j2len j = some k →
        1 ≤ k ∧ k ≤ colRun b2j a j ∧ ∃ t', t = t' + 1 ∧ k ≤ colRun b2j a t') →
      (∀ t', t = t' + 1 → rareAt b2j a t' → natLookup j2len t' = some (colRun b2j a t')) →
      ∃ m d' s', (List.range' t cnt).foldl
          (fun st i => innerLoop i 0 n st.1 (b2jGet b2j (a.getD i "")) [] st.2)
          (j2len, (d, d, s)) = (m, (d', d', s')) ∧ d' + s' ≤ n := by
  intro cnt
  induction cnt with
  | zero =>
    intro t j2len d s ht hds _ _ _
    exact ⟨j2len, d, s, rfl, by omega⟩
  | succ cnt ih =>
    intro t j2len d s ht hds hsmall hprev hdiag
    have htn : t < n := by omega
    rw [List.range'_succ, List.foldl_cons]
    by_cases hjs : b2jGet b2j (a.getD t "") = []
    · have hstep : innerLoop t 0 n j2len (b2jGet b2j (a.getD t "")) [] (d, d, s) =
          ([], (d, d, s)) := by
        rw [hjs, innerLoop]
      rw [hstep]
      have hnotrare : ¬ rareAt b2j a t := by
        intro hr
        rw [rareAt] at hr
        rw [hjs] at hr
        cases hr
      refine ih (t + 1) [] d s (by omega) (by omega) ?_ ?_ ?_
      · intro j hj
        rcases Nat.lt_or_ge j t with h | h
        · exact hsmall j h
        · have : j = t := by omega
          subst this
          rw [colRun_eq_zero_of_not_rare hnotrare]
          omega
      · intro j k hfind
        cases hfind
      · intro t' ht' hr
        have : t' = t := by omega
        subst this
        exact absurd hr hnotrare
    · have htmem : t ∈ b2jGet b2j (a.getD t "") := H2 t htn hjs
      have hrare : rareAt b2j a t := htmem
      obtain ⟨m', d', s', hrun, hcol, hds', hss', hmf, hdf⟩ :=
        innerLoop_prediag H1 hprev hdiag hrare htn (b2jGet b2j (a.getD t ""))
          [] d s htmem (H3 _) (fun j hj => hj) hds hsmall (fun j k hfind => by cases hfind)
      rw [hrun]
      refine ih (t + 1) m' d' s' (by omega) (by omega) ?_ ?_ ?_
      · intro j hj
        rcases Nat.lt_or_ge j t with h | h
        · exact le_trans (hsmall j h) hss'
        · have : j = t := by omega
          subst this
          exact hcol
      · intro j k hfind
        obtain ⟨h1, h2, h3⟩ := hmf j k hfind
        exact ⟨h1, h2, t, rfl, h3⟩
      · intro t' ht' hr
        have : t' = t := by omega
        subst this
        exact hdf

theorem extendLeft_diag (a : List String) :
    ∀ (d : Nat) (fuel s : Nat), d ≤ fuel →
      extendLeft a a 0 0 fuel d d s = (0, 0, s + d) := by
  intro d
  induction d with
  | zero =>
    intro fuel s _
    cases fuel with
    | zero => rfl
    | succ f =>
      rw [extendLeft, if_neg (by omega)]
      rfl
  | succ d ih =>
    intro fuel s hfuel
    cases fuel with
    | zero => omega
    | succ f =>
      rw [extendLeft, if_pos ⟨Nat.succ_pos d, Nat.succ_pos d, rfl⟩]
      have := ih f (s + 1) (by omega)
      simpa [Nat.add_assoc, Nat.add_comm 1 d] using this

theorem extendRight_diag (a : List String) (n : Nat) :
    ∀ (fuel s : Nat), s ≤ n → n - s ≤ fuel →
      extendRight a a n n fuel 0 0 s = n := by
  intro fuel
  induction fuel with
  | zero =>
    intro s hs hf
    have : s = n := by omega
    subst this
    rfl
  | succ f ih =>
    intro s hs hf
    by_cases h : s < n
    · rw [extendRight, if_pos ⟨by omega, by omega, rfl⟩]
      exact ih (s + 1) (by omega) (by omega)
    · have : s = n := by omega
      subst this
      rw [extendRight, if_neg (by omega)]

theorem findLongestMatch_refl (a : List String) (b2j : List (String × List Nat)) (n : Nat)
    (H1 : ∀ x j, j ∈ b2jGet b2j x → a.getD j "" = x)
    (H2 : ∀ i, i < n → b2jGet b2j (a.getD i "") ≠ [] → i ∈ b2jGet b2j (a.getD i ""))
    (H3 : ∀ x, List.Pairwise (· < ·) (b2jGet b2j x)) :
    findLongestMatch a a b2j 0 n 0 n = (0, 0, n) := by
  obtain ⟨m, d', s', hfold, hds⟩ := flmFold_diag H1 H2 H3 n 0 [] 0 0
    (by omega) (by omega) (fun j hj => by omega)
    (fun j k hfind => by cases hfind) (fun t' ht' => by cases ht')
  simp only [findLongestMatch, Nat.sub_zero, hfold,
    extendLeft_diag a d' (d' + 1) s' (by omega),
    extendRight_diag a n (n + 1) (s' + d') (by omega) (by omega)]

theorem gmbLoop_nil (a b : List String) (b2j : List (String × List Nat)) (fuel : Nat)
    (acc : List (Nat × Nat × Nat)) : gmbLoop a b b2j (fuel + 1) [] acc = acc := rfl

theorem gmbLoop_cons (a b : List String) (b2j : List (String × List Nat)) (fuel : Nat)
    (alo ahi blo bhi : Nat) (queue : List (Nat × Nat × Nat × Nat))
    (acc : List (Nat × Nat × Nat)) :
    gmbLoop a b b2j (fuel + 1) ((alo, ahi, blo, bhi) :: queue) acc =
      (if (findLongestMatch a b b2j alo ahi blo bhi).2.2 ≠ 0 then
        gmbLoop a b b2j fuel
          ((if (findLongestMatch a b b2j alo ahi blo bhi).1 +
              (findLongestMatch a b b2j alo ahi blo bhi).2.2 < ahi ∧
              (findLongestMatch a b b2j alo ahi blo bhi).2.1 +
              (findLongestMatch a b b2j alo ahi blo bhi).2.2 < bhi then
            [((findLongestMatch a b b2j alo ahi blo bhi).1 +
              (findLongestMatch a b b2j alo ahi blo bhi).2.2, ahi,
              (findLongestMatch a b b2j alo ahi blo bhi).2.1 +
              (findLongestMatch a b b2j alo ahi blo bhi).2.2, bhi)]
          else []) ++
          (if alo < (findLongestMatch a b b2j alo ahi blo bhi).1 ∧
              blo < (findLongestMatch a b b2j alo ahi blo bhi).2.1 then
            [(alo, (findLongestMatch a b b2j alo ahi blo bhi).1, blo,
              (findLongestMatch a b b2j alo ahi blo bhi).2.1)]
          else []) ++ queue)
          (acc ++ [((findLongestMatch a b b2j alo ahi blo bhi).1,
            (findLongestMatch a b b2j alo ahi blo bhi).2.1,
            (findLongestMatch a b b2j alo ahi blo bhi).2.2)])
      else gmbLoop a b b2j fuel queue acc) := rfl

theorem getMatchingBlocks_refl (a : List String) :
    getMatchingBlocks a a =
      if a.length = 0 then [(0, 0, 0)]
      else [(0, 0, a.length), (a.length, a.length, 0)] := by
  have hflm := findLongestMatch_refl a (chainB a) a.length
    (chainB_occ a) (fun i hi => chainB_self_mem a i hi) (chainB_sorted a)
  rw [getMatchingBlocks]
  by_cases h : a.length = 0
  · rw [if_pos h]
    have hloop : gmbLoop a a (chainB a) (a.length + a.length + 2)
        [(0, a.length, 0, a.length)] [] = [] := by
      rw [show a.length + a.length + 2 = (a.length + a.length + 1) + 1 from rfl]
      rw [gmbLoop_cons]
      simp only [hflm]
      rw [if_neg (by omega : ¬ a.length ≠ 0)]
      rw [show a.length + a.length + 1 = (a.length + a.length) + 1 from rfl]
      rw [gmbLoop_nil]
    rw [hloop]
    simp [mergeAdjGo, h]
  · rw [if_neg h]
    have hloop : gmbLoop a a (chainB a) (a.length + a.length + 2)
        [(0, a.length, 0, a.length)] [] = [(0, 0, a.length)] := by
      rw [show a.length + a.length + 2 = (a.length + a.length + 1) + 1 from rfl]
      rw [gmbLoop_cons]
      simp only [hflm]
      rw [if_pos (by omega : a.length ≠ 0)]
      rw [if_neg (by omega : ¬ ((0 : Nat) + a.length < a.length ∧ (0 : Nat) + a.length < a.length))]
      rw [if_neg (by omega : ¬ ((0 : Nat) < 0 ∧ (0 : Nat) < 0))]
      simp only [List.nil_append, List.append_nil]
      rw [show a.length + a.length + 1 = (a.length + a.length) + 1 from rfl]
      rw [gmbLoop_nil]
    rw [hloop]
    have hsort : List.insertionSort tripleLe [(0, 0, a.length)] = [(0, 0, a.length)] := rfl
    rw [hsort]
    rw [mergeAdjGo]
    rw [if_pos (by omega : (0 : Nat) + 0 = 0 ∧ (0 : Nat) + 0 = 0)]
    rw [mergeAdjGo]
    rw [if_pos (by omega : (0 : Nat) + a.length ≠ 0)]
    simp

theorem getOpcodes_refl (a : List String) :
    getOpcodes a a =
      if a.length = 0 then []
      else [("equal", 0, a.length, 0, a.length)] := by
  rw [getOpcodes, getMatchingBlocks_refl]
  by_cases h : a.length = 0
  · rw [if_pos h, if_pos h]
    rw [getOpcodesGo]
    simp [getOpcodesGo]
  · rw [if_neg h, if_neg h]
    rw [getOpcodesGo]
    simp only [lt_irrefl, and_self, if_false, false_and, ite_false, Nat.zero_add]
    rw [if_neg (by simp : ¬ ("" : String) ≠ "")]
    rw [if_pos h]
    rw [getOpcodesGo]
    simp only [lt_irrefl, and_self, if_false, false_and, ite_false]
    rw [if_neg (by simp : ¬ ("" : String) ≠ "")]
    rw [if_neg (by omega : ¬ (0 : Nat) ≠ 0)]
    rw [getOpcodesGo]
    simp

/-- C4: aligning any token sequence against itself yields a buffer with zero
annotations, and `get_corrected_text()` on that buffer returns the tokens
joined by single spaces.  (Even when difflib's autojunk heuristic purges
popular tokens from `b2j`, the non-junk extension loop of
`find_longest_match` grows the empty match along the identical diagonal, so
the single resulting opcode is always `equal`.) -/
theorem c4_align_identity (S : List String) :
    align S S = Except.ok ⟨S, []⟩ ∧
    getCorrectedText ⟨S, []⟩ 0 = joinSp S := by
  constructor
  · rw [align, genDiffs, getOpcodes_refl]
    by_cases h : S.length = 0
    · rw [if_pos h]
      rfl
    · rw [if_neg h]
      simp [alignGo]
  · rw [getCorrectedText, getCorrectedTokens]
    simp only [List.filterMap_nil]
    rw [getEditedTokens]
    rw [show List.insertionSort editLe [] = [] from rfl]
    rw [getEditedTokensGo]
    simp [pySliceFrom, pyNorm]

/-
Claim C9: the concrete alignment example and the bit-exact rendering format.
-/

/-- C9: `align("the red fox", "the brown fox")` produces exactly one
annotation `(1, 2, "red", ["brown"])` over the source tokens, and
`get_annotated_text()` renders bit-exactly as `the {red=>brown} fox`; in
general an annotated span renders as
`{source=>sugg1|sugg2...:::k1=v1:::k2=v2}` and a span with an empty
suggestion list renders the reserved `NO_SUGGESTIONS` placeholder instead
of empty brackets. -/
theorem c9_align_render :
    align ["the", "red", "fox"] ["the", "brown", "fox"] =
      Except.ok ⟨["the", "red", "fox"], [⟨1, 2, "red", ["brown"], []⟩]⟩ ∧
    getAnnotatedText ⟨["the", "red", "fox"], [⟨1, 2, "red", ["brown"], []⟩]⟩ true =
      "the \x7bred=>brown\x7d fox" ∧
    annotToStr ⟨0, 1, "helo", ["hello", "hola"], [("k1", "v1"), ("k2", "v2")]⟩ true =
      "\x7bhelo=>hello|hola:::k1=v1:::k2=v2\x7d" ∧
    annotToStr ⟨0, 1, "x", [], []⟩ true = "\x7bx=>NO_SUGGESTIONS\x7d" ∧
    (∀ a : TokenAnnot, a.suggestions ≠ [] →
      annotToStr a true = "\x7b" ++ a.source_text ++ "=>" ++ pyJoin ("|") a.suggestions ++
        formatMeta a.meta ++ "\x7d") ∧
    (∀ a : TokenAnnot, a.suggestions = [] →
      annotToStr a true = "\x7b" ++ a.source_text ++ "=>" ++ NO_SUGGESTIONS ++
        formatMeta a.meta ++ "\x7d") := by
  refine ⟨by decide, by decide, by decide, by decide, ?_, ?_⟩
  · intro a h
    simp [annotToStr, h]
  · intro a h
    simp [annotToStr, h]
